import Mathlib

/-!
# gitlab-repo-clonador: a shallow embedding of `main.go`

The program walks a GitLab group (the group itself, its subgroups, and their
subgroups), lists the projects of each, and runs `git clone` for every project
under a directory tree that mirrors the group hierarchy.

The embedding has three layers.

* `GoJson`: the part of Go's `encoding/json` that `json.Unmarshal` exercises for
  the targets `[]Subgroup`, `Subgroup` and `[]Project`: the syntax check of the
  whole input, then the decoding pass that stores what fits and remembers the
  first type mismatch.
* `GoPath`: `path.Clean` and `path.Join` of Go's `path` package.
* `Clonador`: the functions of `main.go`, with the network, the filesystem and
  the `git` process as an explicit environment, and every `log.Fatalf` as a
  `fatal` outcome.

Response bodies are modelled as text (`String`), that is, as valid UTF-8.
Go's `int` is taken to be 64 bits wide. The JSON scanner recurses on a fuel
argument; `GoJson.scanValue_fuel` shows that the fuel `parseJSON` passes is never
what stops it. `GoPath.Clean_table` and `GoPath.Join_table` check the path model
against the test tables of Go's `path` package.
-/

namespace GoJson

/-- A syntactically valid JSON text. Numbers keep their literal, because the
decoder hands the literal to `strconv.ParseInt`; strings and object keys are
stored unquoted. -/
inductive JSON where
  | null
  | bool (b : Bool)
  | num (lit : List Char)
  | str (s : String)
  | arr (elems : List JSON)
  | obj (members : List (String × JSON))

/-- The scanner's nesting limit (`maxNestingDepth` in `scanner.go`). -/
def maxNestingDepth : Nat := 10000

/-- The four bytes the scanner treats as insignificant space. -/
def isSpace (c : Char) : Bool :=
  c == ' ' || c == '\t' || c == '\r' || c == '\n'

/-- Drop leading insignificant space. -/
def dropSpace : List Char → List Char
  | [] => []
  | c :: cs => if isSpace c then dropSpace cs else c :: cs

/-- A decimal digit. -/
def isDigit (c : Char) : Bool := '0' ≤ c && c ≤ '9'

/-- Split off the longest prefix of decimal digits. -/
def spanDigits : List Char → List Char × List Char
  | [] => ([], [])
  | c :: cs =>
    if isDigit c then ((spanDigits cs).1.cons c, (spanDigits cs).2) else ([], c :: cs)

/-- The integer part of a number literal: `0`, or a non-zero digit followed by digits. -/
def scanIntPart : List Char → Option (List Char × List Char)
  | [] => none
  | c :: cs =>
    if c == '0' then some (['0'], cs)
    else if isDigit c then some (c :: (spanDigits cs).1, (spanDigits cs).2)
    else none

/-- The optional fraction of a number literal: `.` and at least one digit. -/
def scanFrac : List Char → Option (List Char × List Char)
  | '.' :: cs =>
    match spanDigits cs with
    | ([], _) => none
    | (ds, rest) => some ('.' :: ds, rest)
  | cs => some ([], cs)

/-- The optional exponent of a number literal: `e` or `E`, an optional sign,
and at least one digit. -/
def scanExp : List Char → Option (List Char × List Char)
  | [] => some ([], [])
  | c :: cs =>
    if c == 'e' || c == 'E' then
      match cs with
      | [] => none
      | s :: cs1 =>
        if s == '+' || s == '-' then
          match spanDigits cs1 with
          | ([], _) => none
          | (ds, rest) => some (c :: s :: ds, rest)
        else
          match spanDigits (s :: cs1) with
          | ([], _) => none
          | (ds, rest) => some (c :: ds, rest)
    else some ([], c :: cs)

/-- The optional minus sign of a number literal. -/
def scanSign : List Char → List Char × List Char
  | '-' :: r => (['-'], r)
  | cs => ([], cs)

/-- A whole number literal, with the text that follows it. -/
def scanNumber (cs : List Char) : Option (List Char × List Char) :=
  match scanIntPart (scanSign cs).2 with
  | none => none
  | some (ip, r1) =>
    match scanFrac r1 with
    | none => none
    | some (fp, r2) =>
      match scanExp r2 with
      | none => none
      | some (ep, r3) => some ((scanSign cs).1 ++ ip ++ fp ++ ep, r3)

/-- The sixteen hexadecimal digits, lower case, in order of value. -/
def hexDigits : List Char := "0123456789abcdef".data

/-- The value of a hexadecimal digit of either case: its place among the
sixteen digits. -/
def hexDigit (c : Char) : Option Nat :=
  if hexDigits.indexOf c.toLower < 16 then some (hexDigits.indexOf c.toLower) else none

/-- The code unit of `\uXXXX`, given the text after the backslash (`getu4`). -/
def getu4 : List Char → Option Nat
  | 'u' :: a :: b :: c :: d :: _ =>
    match hexDigit a, hexDigit b, hexDigit c, hexDigit d with
    | some x, some y, some z, some w => some (((x * 16 + y) * 16 + z) * 16 + w)
    | _, _, _, _ => none
  | _ => none

/-- The Unicode replacement character, which stands for an unpaired surrogate. -/
def replacementChar : Char := Char.ofNat 0xFFFD

/-- Decode a `\\u` escape, given the text after the backslash: the character it
stands for and the text after the escape. A surrogate pair written as two
escapes is combined into one character; an unpaired surrogate becomes U+FFFD and
only the first escape is consumed. -/
def unquoteU (cs : List Char) : Option (Char × List Char) :=
  match getu4 cs with
  | none => none
  | some u =>
    if 0xD800 ≤ u && u < 0xE000 then
      match cs.drop 5 with
      | '\\' :: more =>
        match getu4 more with
        | some v =>
          if u < 0xDC00 && 0xDC00 ≤ v && v < 0xE000 then
            some (Char.ofNat ((u - 0xD800) * 1024 + (v - 0xDC00) + 0x10000), more.drop 5)
          else some (replacementChar, cs.drop 5)
        | none => some (replacementChar, cs.drop 5)
      | _ => some (replacementChar, cs.drop 5)
    else some (Char.ofNat u, cs.drop 5)

/-- The text of a string literal after its opening quote: the unquoted string
(accumulated in reverse) and the text after the closing quote. Control
characters and unknown escapes are syntax errors. -/
def scanString : Nat → List Char → List Char → Option (String × List Char)
  | 0, _, _ => none
  | _ + 1, [], _ => none
  | fuel + 1, c :: cs, acc =>
    if c == '"' then some (String.mk acc.reverse, cs)
    else if c == '\\' then
      match cs with
      | [] => none
      | e :: rest =>
        if e == '"' || e == '\\' || e == '/' then scanString fuel rest (e :: acc)
        else if e == 'b' then scanString fuel rest (Char.ofNat 8 :: acc)
        else if e == 'f' then scanString fuel rest (Char.ofNat 12 :: acc)
        else if e == 'n' then scanString fuel rest ('\n' :: acc)
        else if e == 'r' then scanString fuel rest ('\r' :: acc)
        else if e == 't' then scanString fuel rest ('\t' :: acc)
        else if e == 'u' then
          match unquoteU (e :: rest) with
          | none => none
          | some (ch, after) => scanString fuel after (ch :: acc)
        else none
    else if c.toNat < 0x20 then none
    else scanString fuel cs (c :: acc)

/-- Check that the text starts with the given literal name and drop it. -/
def dropLiteral : List Char → List Char → Option (List Char)
  | [], cs => some cs
  | _ :: _, [] => none
  | l :: ls, c :: cs => if l == c then dropLiteral ls cs else none

mutual

/-- One JSON value, possibly preceded by space, with the text that follows it.
`depth` counts the arrays and objects that are open around the value. -/
def scanValue : Nat → Nat → List Char → Option (JSON × List Char)
  | 0, _, _ => none
  | fuel + 1, depth, cs =>
    match dropSpace cs with
    | [] => none
    | c :: rest =>
      if c == '[' then
        if depth ≥ maxNestingDepth then none
        else if (dropSpace rest).head? == some ']' then some (JSON.arr [], (dropSpace rest).tail)
        else scanElems fuel (depth + 1) rest []
      else if c == '{' then
        if depth ≥ maxNestingDepth then none
        else if (dropSpace rest).head? == some '}' then some (JSON.obj [], (dropSpace rest).tail)
        else scanMembers fuel (depth + 1) rest []
      else if c == '"' then
        match scanString (rest.length + 1) rest [] with
        | none => none
        | some (s, after) => some (JSON.str s, after)
      else if c == 't' then (dropLiteral ['r', 'u', 'e'] rest).map (fun r => (JSON.bool true, r))
      else if c == 'f' then
        (dropLiteral ['a', 'l', 's', 'e'] rest).map (fun r => (JSON.bool false, r))
      else if c == 'n' then (dropLiteral ['u', 'l', 'l'] rest).map (fun r => (JSON.null, r))
      else if c == '-' || isDigit c then
        (scanNumber (c :: rest)).map (fun p => (JSON.num p.1, p.2))
      else none

/-- The elements of an array after `[` or `,`, up to and including `]`. -/
def scanElems : Nat → Nat → List Char → List JSON → Option (JSON × List Char)
  | 0, _, _, _ => none
  | fuel + 1, depth, cs, acc =>
    match scanValue fuel depth cs with
    | none => none
    | some (v, rest) =>
      if (dropSpace rest).head? == some ',' then
        scanElems fuel depth (dropSpace rest).tail (v :: acc)
      else if (dropSpace rest).head? == some ']' then
        some (JSON.arr (v :: acc).reverse, (dropSpace rest).tail)
      else none

/-- The members of an object after `{` or `,`, up to and including `}`. -/
def scanMembers : Nat → Nat → List Char → List (String × JSON) → Option (JSON × List Char)
  | 0, _, _, _ => none
  | fuel + 1, depth, cs, acc =>
    if (dropSpace cs).head? == some '"' then
      match scanString (dropSpace cs).length (dropSpace cs).tail [] with
      | none => none
      | some (key, afterKey) =>
        if (dropSpace afterKey).head? == some ':' then
          match scanValue fuel depth (dropSpace afterKey).tail with
          | none => none
          | some (v, afterValue) =>
            if (dropSpace afterValue).head? == some ',' then
              scanMembers fuel depth (dropSpace afterValue).tail ((key, v) :: acc)
            else if (dropSpace afterValue).head? == some '}' then
              some (JSON.obj ((key, v) :: acc).reverse, (dropSpace afterValue).tail)
            else none
        else none
    else none

end

/-- The syntax check of `json.Unmarshal` (`checkValid`): the whole input is one
JSON value, with nothing but space around it. -/
def parseJSON (body : String) : Option JSON :=
  match scanValue (body.length + 1) 0 body.data with
  | none => none
  | some (v, rest) =>
    match dropSpace rest with
    | [] => some v
    | _ :: _ => none

/-- Go's `strconv.ParseInt(lit, 10, 64)` on a JSON number literal: an optional
minus sign and decimal digits only, and a value that fits 64 bits. -/
def parseInt (lit : List Char) : Option Int :=
  let negative : Bool := lit.head? == some '-'
  let digits : List Char := if negative then lit.drop 1 else lit
  if digits.isEmpty || !digits.all isDigit then none
  else
    let magnitude : Nat := digits.foldl (fun a c => a * 10 + (c.toNat - '0'.toNat)) 0
    let value : Int := if negative then -(magnitude : Int) else (magnitude : Int)
    if -(2 : Int) ^ 63 ≤ value ∧ value < (2 : Int) ^ 63 then some value else none

/-- Store a JSON value into an `int` field (`literalStore`): the new content of
the field, and whether a type mismatch is recorded. `null` leaves the field
alone; a non-integer or out-of-range number, and any other value, is a mismatch
that leaves the field alone too. -/
def storeInt (v : JSON) (cur : Int) : Int × Bool :=
  match v with
  | JSON.null => (cur, false)
  | JSON.num lit =>
    match parseInt lit with
    | some n => (n, false)
    | none => (cur, true)
  | _ => (cur, true)

/-- Store a JSON value into a `string` field: `null` leaves the field alone, a
string replaces it, anything else is a recorded mismatch. -/
def storeString (v : JSON) (cur : String) : String × Bool :=
  match v with
  | JSON.null => (cur, false)
  | JSON.str s => (s, false)
  | _ => (cur, true)

/-- An object key selects the struct field whose JSON name equals it exactly or
up to letter case. The field names of this program are lower-case ASCII without
`k` or `s`, the only letters with non-ASCII case variants, so the comparison is
ASCII case folding. -/
def keyMatches (key name : String) : Bool :=
  key.data.map Char.toLower == name.data

end GoJson

namespace GoPath

/-- The elements of a path: the pieces between slashes (possibly empty). -/
def splitSlash : List Char → List (List Char)
  | [] => [[]]
  | c :: cs =>
    if c = '/' then [] :: splitSlash cs
    else
      match splitSlash cs with
      | [] => [[c]]
      | e :: es => (c :: e) :: es

/-- One step of `path.Clean`: process the next path element against the
elements kept so far (`kept`, last one first). Empty and `.` elements are
dropped; `..` removes the last kept element when there is one that is not
itself `..`, is kept at the front of a relative path, and is dropped at the
root of a rooted path; every other element is kept. -/
def cleanStep (rooted : Bool) (kept : List (List Char)) (e : List Char) : List (List Char) :=
  if e = [] ∨ e = ['.'] then kept
  else if e = ['.', '.'] then
    match kept with
    | [] => if rooted then [] else [e]
    | top :: below =>
      if top = ['.', '.'] then (if rooted then kept else e :: kept) else below
  else e :: kept

/-- The elements `path.Clean` keeps, in path order. -/
def cleanElems (rooted : Bool) (p : List Char) : List (List Char) :=
  ((splitSlash p).foldl (cleanStep rooted) []).reverse

/-- Whether a path starts with a slash. -/
def isRooted (p : List Char) : Bool := p.head? == some '/'

/-- Put kept elements back together with single slashes. -/
def joinSlash : List (List Char) → List Char
  | [] => []
  | [e] => e
  | e :: es => e ++ '/' :: joinSlash es

/-- Go's `path.Clean`: the shortest path equivalent to the argument by purely
lexical processing. The empty path and a relative path that cleans to nothing
become `.`. -/
def Clean (p : String) : String :=
  if p.data = [] then "."
  else
    let body := joinSlash (cleanElems (isRooted p.data) p.data)
    if isRooted p.data then String.mk ('/' :: body)
    else if body = [] then "."
    else String.mk body

/-- Concatenate the non-empty elements with a slash between them. -/
def joinNonEmpty : List String → List Char
  | [] => []
  | e :: es =>
    if e.data = [] then joinNonEmpty es
    else if joinNonEmpty es = [] then e.data
    else e.data ++ '/' :: joinNonEmpty es

/-- Go's `path.Join`: empty elements are ignored, the rest is joined with
slashes and cleaned; when every element is empty the result is the empty
string. -/
def Join (elem : List String) : String :=
  if joinNonEmpty elem = [] then "" else Clean (String.mk (joinNonEmpty elem))

/-- The elements of a path that is already clean: the pieces between slashes,
without the empty pieces and the lone `.` that stands for "no element". -/
def pathElems (p : String) : List (List Char) :=
  (splitSlash p.data).filter (fun e => !(e == []) && !(e == ['.']))

/-- Lexical containment of clean paths: `p` is `base` itself or a descendant of
it when both are rooted or both are relative, the elements of `base` are the
first elements of `p`, and no further element of `p` is `..`. -/
def isWithin (base p : String) : Bool :=
  (isRooted base.data == isRooted p.data) &&
  (pathElems base).isPrefixOf (pathElems p) &&
  !((pathElems p).drop (pathElems base).length).contains ['.', '.']

/-- The directories Go's `os.MkdirAll` makes sure exist for a clean path: the
directory itself "along with any necessary parents", outermost first (the root
is not listed). -/
def selfAndParents (dir : String) : List String :=
  (List.range (pathElems dir).length).map (fun i =>
    String.mk ((if isRooted dir.data then ['/'] else []) ++
      joinSlash ((pathElems dir).take (i + 1))))

end GoPath

namespace Clonador

open GoJson GoPath

/-- One group record of the GitLab API (`type Subgroup struct`). -/
structure Subgroup where
  ID : Int
  Path : String
  FullPath : String
deriving DecidableEq, Repr

/-- One project record of the GitLab API (`type Project struct`). -/
structure Project where
  ID : Int
  HttpsUrl : String
  Path : String
deriving DecidableEq, Repr

/-- The zero value of `Subgroup`. -/
def Subgroup.zero : Subgroup := ⟨0, "", ""⟩

/-- The zero value of `Project`. -/
def Project.zero : Project := ⟨0, "", ""⟩

/-- Decode one object member into a `Subgroup`: the struct afterwards and
whether a type mismatch is recorded. Unknown keys are skipped. -/
def Subgroup.storeMember (s : Subgroup) (m : String × JSON) : Subgroup × Bool :=
  if keyMatches m.1 "id" then ({ s with ID := (storeInt m.2 s.ID).1 }, (storeInt m.2 s.ID).2)
  else if keyMatches m.1 "path" then
    ({ s with Path := (storeString m.2 s.Path).1 }, (storeString m.2 s.Path).2)
  else if keyMatches m.1 "full_path" then
    ({ s with FullPath := (storeString m.2 s.FullPath).1 }, (storeString m.2 s.FullPath).2)
  else (s, false)

/-- Decode the members of an object into a `Subgroup`, in input order; the flag
says whether any mismatch has been recorded so far. -/
def Subgroup.storeMembers : List (String × JSON) → Subgroup × Bool → Subgroup × Bool
  | [], acc => acc
  | m :: ms, acc => Subgroup.storeMembers ms ((acc.1.storeMember m).1, acc.2 || (acc.1.storeMember m).2)

/-- Decode a JSON value into a `Subgroup` variable: `null` is a no-op, an object
is decoded member by member, any other value is a mismatch. -/
def decodeSubgroup (v : JSON) (s : Subgroup) : Subgroup × Bool :=
  match v with
  | JSON.null => (s, false)
  | JSON.obj ms => Subgroup.storeMembers ms (s, false)
  | _ => (s, true)

/-- The call `json.Unmarshal(body, &subgroup)` on a zero `subgroup`: the variable
afterwards and whether the returned error is non-nil. -/
def unmarshalSubgroup (body : String) : Subgroup × Bool :=
  match parseJSON body with
  | none => (Subgroup.zero, true)
  | some v => decodeSubgroup v Subgroup.zero

/-- The call `json.Unmarshal(body, &subgroups)` on a nil slice: the slice
afterwards and whether the returned error is non-nil. Invalid syntax leaves the
slice nil; `null` gives nil; an array gives one element per array element, each
decoded into a zero struct, also when some element records a mismatch; any other
value is a mismatch that leaves the slice nil. -/
def unmarshalSubgroups (body : String) : List Subgroup × Bool :=
  match parseJSON body with
  | none => ([], true)
  | some JSON.null => ([], false)
  | some (JSON.arr vs) =>
    (vs.map (fun v => (decodeSubgroup v Subgroup.zero).1),
     vs.any (fun v => (decodeSubgroup v Subgroup.zero).2))
  | some _ => ([], true)

/-- Decode one object member into a `Project`. -/
def Project.storeMember (p : Project) (m : String × JSON) : Project × Bool :=
  if keyMatches m.1 "id" then ({ p with ID := (storeInt m.2 p.ID).1 }, (storeInt m.2 p.ID).2)
  else if keyMatches m.1 "http_url_to_repo" then
    ({ p with HttpsUrl := (storeString m.2 p.HttpsUrl).1 }, (storeString m.2 p.HttpsUrl).2)
  else if keyMatches m.1 "path" then
    ({ p with Path := (storeString m.2 p.Path).1 }, (storeString m.2 p.Path).2)
  else (p, false)

/-- Decode the members of an object into a `Project`, in input order. -/
def Project.storeMembers : List (String × JSON) → Project × Bool → Project × Bool
  | [], acc => acc
  | m :: ms, acc => Project.storeMembers ms ((acc.1.storeMember m).1, acc.2 || (acc.1.storeMember m).2)

/-- Decode a JSON value into a `Project` variable. -/
def decodeProject (v : JSON) (p : Project) : Project × Bool :=
  match v with
  | JSON.null => (p, false)
  | JSON.obj ms => Project.storeMembers ms (p, false)
  | _ => (p, true)

/-- The call `json.Unmarshal(body, &projects)` on a nil slice: the slice
afterwards and whether the returned error is non-nil. -/
def unmarshalProjects (body : String) : List Project × Bool :=
  match parseJSON body with
  | none => ([], true)
  | some JSON.null => ([], false)
  | some (JSON.arr vs) =>
    (vs.map (fun v => (decodeProject v Project.zero).1),
     vs.any (fun v => (decodeProject v Project.zero).2))
  | some _ => ([], true)

/-- The four package-level variables of `main.go`. -/
structure Globals where
  accessToken : String
  baseDir : String
  gitlabBaseURL : String
  groupId : String

/-- What the program sees of an HTTP response: the status code, the bytes
`io.ReadAll` returns, whether `io.ReadAll` returns an error with them, and
whether closing the body returns an error. -/
structure Response where
  status : Nat
  body : String
  readFails : Bool
  closeFails : Bool

/-- The three ways a GET can go: `http.NewRequest` rejects the URL, `client.Do`
fails at transport level, or a response arrives. -/
inductive HttpResult where
  | invalidRequest
  | transportError
  | response (r : Response)

/-- The filesystem as the program observes it: the paths on which `os.Stat`
succeeds. -/
abbrev FS := List String

/-- The world outside the process. `http` answers a GET for a URL sent with an
access token (the server is assumed to answer a URL the same way during one
run); `mkdirAll` and `gitClone` say whether the operation succeeds and what
the filesystem is afterwards. -/
structure Env where
  http : String → String → HttpResult
  mkdirAll : FS → String → Bool × FS
  gitClone : FS → String → String → Bool × FS

/-- What a run does that can be observed from outside, in order. -/
inductive Event where
  | request (url : String) (status : Option Nat)
  | cloneCall (gitProjectUrl fullPath projectPath : String)
  | stat (path : String)
  | mkdirAll (dir : String)
  | gitClone (gitProjectUrl dir : String)
deriving DecidableEq, Repr

/-- The `log.Fatalf` sites of `main.go`. -/
inductive Fatal where
  | flagsRequired
  | fetchingSubgroups
  | closingBody
  | readingBody
  | unmarshaling
  | listingProjects
  | errorOccurred
  | cloneFailed
deriving DecidableEq, Repr

/-- How a step ends: it returns a value, the process exits through
`log.Fatalf`, or it panics on an index out of range. -/
inductive Outcome (α : Type) where
  | ok (a : α)
  | fatal (f : Fatal)
  | indexPanic
deriving DecidableEq, Repr

/-- The result of running a step: the events it produced, the filesystem
afterwards, and how it ended. -/
structure Res (α : Type) where
  events : List Event
  fs : FS
  out : Outcome α
deriving DecidableEq, Repr

/-- Sequencing: the second step runs only when the first one returns. -/
def Res.andThen {α β : Type} (r : Res α) (k : α → FS → Res β) : Res β :=
  match r.out with
  | Outcome.ok a => ⟨r.events ++ (k a r.fs).events, (k a r.fs).fs, (k a r.fs).out⟩
  | Outcome.fatal f => ⟨r.events, r.fs, Outcome.fatal f⟩
  | Outcome.indexPanic => ⟨r.events, r.fs, Outcome.indexPanic⟩

/-- Why `request` returns an error. -/
inductive RequestError where
  | createFailed
  | sendFailed
  | unexpectedStatus (status : Nat)
deriving DecidableEq, Repr

/-- The function `request`: the events of the call and its result. -/
def request (env : Env) (g : Globals) (url : String) : List Event × Except RequestError Response :=
  match env.http g.accessToken url with
  | HttpResult.invalidRequest => ([], Except.error RequestError.createFailed)
  | HttpResult.transportError => ([Event.request url none], Except.error RequestError.sendFailed)
  | HttpResult.response resp =>
    if resp.status ≠ 200 then
      ([Event.request url (some resp.status)], Except.error (RequestError.unexpectedStatus resp.status))
    else ([Event.request url (some resp.status)], Except.ok resp)

/-- The function `getGroupApiURL`. -/
def getGroupApiURL (g : Globals) (groupParam : String) : String :=
  g.gitlabBaseURL ++ "/groups/" ++ groupParam ++ "/"

/-- The function `getSubGroupdApiURL`. -/
def getSubGroupdApiURL (g : Globals) (groupParam : String) : String :=
  getGroupApiURL g groupParam ++ "subgroups/"

/-- The URL that `listProjectsAndClone` builds. -/
def projectsUrl (g : Globals) (groupId : String) : String :=
  g.gitlabBaseURL ++ "/groups/" ++ groupId ++ "/projects?archived=false&per_page=1000&with_shared=false"

/-- Go's `strconv.Itoa`. -/
def Itoa (n : Int) : String := toString n

/-- The function `fetchSubGroups`. The deferred close of the body runs when the
function returns, not when it exits through `log.Fatalf`. -/
def fetchSubGroups (env : Env) (g : Globals) (url : String) (fs : FS) : Res (List Subgroup) :=
  match request env g url with
  | (evs, Except.error _) => ⟨evs, fs, Outcome.fatal Fatal.fetchingSubgroups⟩
  | (evs, Except.ok resp) =>
    if resp.readFails then ⟨evs, fs, Outcome.fatal Fatal.readingBody⟩
    else if (unmarshalSubgroups resp.body).2 then
      if (unmarshalSubgroup resp.body).2 then ⟨evs, fs, Outcome.fatal Fatal.unmarshaling⟩
      else if resp.closeFails then ⟨evs, fs, Outcome.fatal Fatal.closingBody⟩
      else ⟨evs, fs, Outcome.ok ((unmarshalSubgroups resp.body).1 ++ [(unmarshalSubgroup resp.body).1])⟩
    else if resp.closeFails then ⟨evs, fs, Outcome.fatal Fatal.closingBody⟩
    else ⟨evs, fs, Outcome.ok (unmarshalSubgroups resp.body).1⟩

/-- The function `cloneGitProject`. Its result is the returned `error`, which
is `nil` on every returning path. -/
def cloneGitProject (env : Env) (g : Globals) (gitProjectUrl fullPath projectPath : String)
    (fs : FS) : Res (Option String) :=
  let cloneDir := Join [g.baseDir, fullPath]
  let target := Join [cloneDir, projectPath]
  if target ∈ fs then
    ⟨[Event.cloneCall gitProjectUrl fullPath projectPath, Event.stat target], fs, Outcome.ok none⟩
  else
    let made := env.mkdirAll fs cloneDir
    let cloned := env.gitClone made.2 gitProjectUrl cloneDir
    ⟨[Event.cloneCall gitProjectUrl fullPath projectPath, Event.stat target,
      Event.mkdirAll cloneDir, Event.gitClone gitProjectUrl cloneDir],
     cloned.2,
     if cloned.1 then Outcome.ok none else Outcome.fatal Fatal.cloneFailed⟩

/-- The loop over `projects` in `listProjectsAndClone`. -/
def cloneProjects (env : Env) (g : Globals) (subGroupPath : String) : List Project → FS → Res Unit
  | [], fs => ⟨[], fs, Outcome.ok ()⟩
  | project :: rest, fs =>
    (cloneGitProject env g project.HttpsUrl subGroupPath project.Path fs).andThen
      (fun err fs1 =>
        match err with
        | some _ => ⟨[], fs1, Outcome.fatal Fatal.errorOccurred⟩
        | none => cloneProjects env g subGroupPath rest fs1)

/-- The function `listProjectsAndClone`. The errors of `io.ReadAll` and of
`json.Unmarshal` are assigned and never looked at; the loop runs over whatever
the decoder left in `projects`. -/
def listProjectsAndClone (env : Env) (g : Globals) (groupId subGroupPath : String) (fs : FS) :
    Res Unit :=
  match request env g (projectsUrl g groupId) with
  | (evs, Except.error _) => ⟨evs, fs, Outcome.fatal Fatal.listingProjects⟩
  | (evs, Except.ok resp) =>
    (Res.mk evs fs (Outcome.ok (unmarshalProjects resp.body).1)).andThen (fun projects fs0 =>
      (cloneProjects env g subGroupPath projects fs0).andThen
        (fun _ fs1 =>
          if resp.closeFails then ⟨[], fs1, Outcome.fatal Fatal.closingBody⟩
          else ⟨[], fs1, Outcome.ok ()⟩))

/-- The inner loop of `main`, over `childSubgroups`. -/
def childLoop (env : Env) (g : Globals) : List Subgroup → FS → Res Unit
  | [], fs => ⟨[], fs, Outcome.ok ()⟩
  | childSubgroup :: rest, fs =>
    (listProjectsAndClone env g (Itoa childSubgroup.ID) childSubgroup.FullPath fs).andThen
      (fun _ fs1 => childLoop env g rest fs1)

/-- The outer loop of `main`, over `subgroups`. -/
def subgroupLoop (env : Env) (g : Globals) : List Subgroup → FS → Res Unit
  | [], fs => ⟨[], fs, Outcome.ok ()⟩
  | subgroup :: rest, fs =>
    (listProjectsAndClone env g (Itoa subgroup.ID) subgroup.FullPath fs).andThen (fun _ fs1 =>
      (fetchSubGroups env g (getSubGroupdApiURL g (Itoa subgroup.ID)) fs1).andThen
        (fun childSubgroups fs2 =>
          (childLoop env g childSubgroups fs2).andThen (fun _ fs3 =>
            subgroupLoop env g rest fs3)))

/-- The globals after `main` has replaced the host name in `gitlabBaseURL` by
the API URL (`fmt.Sprintf("https://%s/api/v4", gitlabBaseURL)`). -/
def withApiURL (flags : Globals) : Globals :=
  { flags with gitlabBaseURL := "https://" ++ flags.gitlabBaseURL ++ "/api/v4" }

/-- The function `main`, given the values the flags were parsed to. -/
def main (env : Env) (flags : Globals) (fs : FS) : Res Unit :=
  if flags.accessToken = "" ∨ flags.baseDir = "" ∨ flags.gitlabBaseURL = "" ∨ flags.groupId = "" then
    ⟨[], fs, Outcome.fatal Fatal.flagsRequired⟩
  else
    let g : Globals := withApiURL flags
    (fetchSubGroups env g (getGroupApiURL g g.groupId) fs).andThen (fun found fs1 =>
      match found with
      | [] => ⟨[], fs1, Outcome.indexPanic⟩
      | mainGroupInfo :: _ =>
        (listProjectsAndClone env g (Itoa mainGroupInfo.ID) mainGroupInfo.FullPath fs1).andThen
          (fun _ fs2 =>
            (fetchSubGroups env g (getSubGroupdApiURL g (Itoa mainGroupInfo.ID)) fs2).andThen
              (fun subgroups fs3 => subgroupLoop env g subgroups fs3)))

/-- A value that an `int` field takes without a mismatch: `null`, or an integer
literal within 64 bits. -/
def isIntValue : JSON → Bool
  | JSON.null => true
  | JSON.num lit => (parseInt lit).isSome
  | _ => false

/-- A value that a `string` field takes without a mismatch: `null` or a string. -/
def isStringValue : JSON → Bool
  | JSON.null => true
  | JSON.str _ => true
  | _ => false

/-- An object member that the decoder stores into a `Subgroup` without a
mismatch: if it is named after a field, its value has the type of that field.
A member with any other name always fits. -/
def Subgroup.memberFits (m : String × JSON) : Bool :=
  (!keyMatches m.1 "id" || isIntValue m.2) &&
  (!keyMatches m.1 "path" || isStringValue m.2) &&
  (!keyMatches m.1 "full_path" || isStringValue m.2)

/-- The values that decode into a `Subgroup` without a mismatch: `null`, or an
object all of whose members fit. No member is required: an object without any
of the three fields fits, and decodes into the zero record. -/
def fitsSubgroup : JSON → Bool
  | JSON.null => true
  | JSON.obj ms => ms.all Subgroup.memberFits
  | _ => false

/-- The values that decode into a `[]Subgroup` without a mismatch: `null`, or an
array all of whose elements decode into a `Subgroup` without a mismatch. -/
def fitsSubgroupSeq : JSON → Bool
  | JSON.null => true
  | JSON.arr vs => vs.all fitsSubgroup
  | _ => false

/-- The body is valid JSON that decodes into a `[]Subgroup` without a mismatch:
the sequence attempt of `fetchSubGroups` succeeds on it. -/
def bodyIsSubgroupSeq (body : String) : Bool :=
  match parseJSON body with
  | some v => fitsSubgroupSeq v
  | none => false

/-- The body is valid JSON that decodes into a `Subgroup` without a mismatch:
the single-object attempt of `fetchSubGroups` succeeds on it. -/
def bodyIsSubgroupObject (body : String) : Bool :=
  match parseJSON body with
  | some v => fitsSubgroup v
  | none => false

/-- The JSON value is an object that encodes the record `s`: exactly one member
is named `id` (up to letter case) and its value is an integer literal for
`s.ID`; exactly one is named `path` and its value is the string `s.Path`;
exactly one is named `full_path` and its value is the string `s.FullPath`.
Members with other names are allowed. -/
def IsSubgroupObject (v : JSON) (s : Subgroup) : Prop :=
  ∃ ms lit, v = JSON.obj ms ∧ parseInt lit = some s.ID ∧
    (ms.filter (fun m => keyMatches m.1 "id")).map Prod.snd = [JSON.num lit] ∧
    (ms.filter (fun m => keyMatches m.1 "path")).map Prod.snd = [JSON.str s.Path] ∧
    (ms.filter (fun m => keyMatches m.1 "full_path")).map Prod.snd = [JSON.str s.FullPath]

/-- The clone invocations in a trace, each as (repository URL, parent
`full_path`, project path), in order. -/
def cloneCalls (evs : List Event) : List (String × String × String) :=
  evs.filterMap (fun ev =>
    match ev with
    | Event.cloneCall u fp pp => some (u, fp, pp)
    | _ => none)

/-- The URLs of the GET requests in a trace, in order. -/
def requestUrls (evs : List Event) : List String :=
  evs.filterMap (fun ev =>
    match ev with
    | Event.request u _ => some u
    | _ => none)

/-- A request that was answered with a status other than 200. -/
def Event.isRefusal : Event → Bool
  | Event.request _ (some status) => status != 200
  | _ => false

/-- What the Group Resolver yields for a URL: the records `fetchSubGroups`
returns there, none when it does not return. -/
def listedGroups (env : Env) (g : Globals) (url : String) : List Subgroup :=
  match (fetchSubGroups env g url []).out with
  | Outcome.ok found => found
  | _ => []

/-- What the Project Lister yields for a group: the records decoded from a
200 answer of the group's projects endpoint, none without such an answer. -/
def listedProjects (env : Env) (g : Globals) (groupId : String) : List Project :=
  match request env g (projectsUrl g groupId) with
  | (_, Except.ok resp) => (unmarshalProjects resp.body).1
  | (_, Except.error _) => []

/-- The clone invocations one group asks for: one per listed project, in API
order, each with the group's `full_path`. -/
def groupCalls (env : Env) (g : Globals) (grp : Subgroup) : List (String × String × String) :=
  (listedProjects env g (Itoa grp.ID)).map (fun p => (p.HttpsUrl, grp.FullPath, p.Path))

/-- The clone invocations of a whole walk from the root record: the root's
projects; then, for each immediate subgroup in API order, its projects followed
by the projects of each of its immediate children in API order. -/
def expectedCalls (env : Env) (g : Globals) (root : Subgroup) : List (String × String × String) :=
  groupCalls env g root ++
    (listedGroups env g (getSubGroupdApiURL g (Itoa root.ID))).flatMap (fun sub =>
      groupCalls env g sub ++
        (listedGroups env g (getSubGroupdApiURL g (Itoa sub.ID))).flatMap (groupCalls env g))

/-- The requests of a whole walk: the group detail of the `groupId` flag, the
root's projects and subgroups, and for each immediate subgroup its projects, its
subgroups, and the projects of each of its immediate children. Nothing is asked
about the children's own subgroups. -/
def expectedRequests (env : Env) (g : Globals) (root : Subgroup) : List String :=
  [getGroupApiURL g g.groupId, projectsUrl g (Itoa root.ID), getSubGroupdApiURL g (Itoa root.ID)] ++
    (listedGroups env g (getSubGroupdApiURL g (Itoa root.ID))).flatMap (fun sub =>
      [projectsUrl g (Itoa sub.ID), getSubGroupdApiURL g (Itoa sub.ID)] ++
        (listedGroups env g (getSubGroupdApiURL g (Itoa sub.ID))).map
          (fun child => projectsUrl g (Itoa child.ID)))

/-- A step stops at the first refusal: its trace holds no refusal at all, or
exactly one, which is its last event, and then the step ended fatally. -/
def StopsAtRefusal {α : Type} (r : Res α) : Prop :=
  (∀ ev ∈ r.events, ev.isRefusal = false) ∨
  ∃ before ev f, r.events = before ++ [ev] ∧ (∀ x ∈ before, x.isRefusal = false) ∧
    r.out = Outcome.fatal f

/-- Every API request and every clone step succeeds: each URL is answered with
status 200 and a body that is read and closed without error, the answers of the
group-detail and subgroups endpoints have one of the two shapes the Group
Resolver accepts, and `git clone` never fails. -/
def AllSucceed (env : Env) (g : Globals) : Prop :=
  (∀ url, ∃ resp, env.http g.accessToken url = HttpResult.response resp ∧
    resp.status = 200 ∧ resp.readFails = false ∧ resp.closeFails = false ∧
    ((∃ gid, url = getGroupApiURL g gid ∨ url = getSubGroupdApiURL g gid) →
      bodyIsSubgroupSeq resp.body = true ∨ bodyIsSubgroupObject resp.body = true)) ∧
  ∀ fs gitProjectUrl dir, (env.gitClone fs gitProjectUrl dir).1 = true

/-- A filesystem environment in which creating directories and cloning always
succeed; a clone leaves the filesystem as it found it. -/
def quietDisk (http : String → String → HttpResult) : Env where
  http := http
  mkdirAll := fun fs dir => (true, dir :: fs)
  gitClone := fun fs _ _ => (true, fs)

/-- A server that answers every GET with status 200 and the given body. -/
def fixedBody (body : String) : Env :=
  quietDisk (fun _ _ => HttpResult.response ⟨200, body, false, false⟩)

/-- Sample globals after `main` has built the API URL. -/
def sampleGlobals : Globals := ⟨"token", "/data", "https://gitlab.example/api/v4", "42"⟩

/-- Sample flags as given on the command line. -/
def sampleFlags : Globals := ⟨"token", "/data", "gitlab.example", "42"⟩

/-- A disk on which `git clone` creates the directory named after the last
segment of the repository URL, without its `.git` suffix, under the working
directory; here simplified to a fixed project `service-a`. -/
def cloningDisk : Env where
  http := fun _ _ => HttpResult.transportError
  mkdirAll := fun fs dir => (true, dir :: fs)
  gitClone := fun fs _ dir => (true, Join [dir, "service-a"] :: fs)

/-- A small GitLab: group `42` (`team`) with one project, a subgroup `43`
(`team/backend`) with two projects, and below it a subgroup `44`
(`team/backend/core`) with one project and a subgroup of its own, `45`, whose
project is out of reach of the walk. -/
def sampleServer (_token url : String) : HttpResult :=
  if url = "https://gitlab.example/api/v4/groups/42/" then
    HttpResult.response ⟨200, "\x7b\"id\":42,\"path\":\"team\",\"full_path\":\"team\"\x7d", false, false⟩
  else if url = "https://gitlab.example/api/v4/groups/42/subgroups/" then
    HttpResult.response
      ⟨200, "[\x7b\"id\":43,\"path\":\"backend\",\"full_path\":\"team/backend\"\x7d]", false, false⟩
  else if url = "https://gitlab.example/api/v4/groups/43/subgroups/" then
    HttpResult.response
      ⟨200, "[\x7b\"id\":44,\"path\":\"core\",\"full_path\":\"team/backend/core\"\x7d]", false, false⟩
  else if url = "https://gitlab.example/api/v4/groups/44/subgroups/" then
    HttpResult.response
      ⟨200, "[\x7b\"id\":45,\"path\":\"deep\",\"full_path\":\"team/backend/core/deep\"\x7d]", false, false⟩
  else if url =
      "https://gitlab.example/api/v4/groups/42/projects?archived=false&per_page=1000&with_shared=false"
    then
    HttpResult.response
      ⟨200, "[\x7b\"id\":1,\"http_url_to_repo\":\"https://gitlab.example/team/docs.git\",\"path\":\"docs\"\x7d]",
        false, false⟩
  else if url =
      "https://gitlab.example/api/v4/groups/43/projects?archived=false&per_page=1000&with_shared=false"
    then
    HttpResult.response
      ⟨200, "[\x7b\"id\":2,\"http_url_to_repo\":\"https://gitlab.example/team/backend/service-a.git\",\"path\":\"service-a\"\x7d,\x7b\"id\":3,\"http_url_to_repo\":\"https://gitlab.example/team/backend/service-b.git\",\"path\":\"service-b\"\x7d]",
        false, false⟩
  else if url =
      "https://gitlab.example/api/v4/groups/44/projects?archived=false&per_page=1000&with_shared=false"
    then
    HttpResult.response
      ⟨200, "[\x7b\"id\":4,\"http_url_to_repo\":\"https://gitlab.example/team/backend/core/lib.git\",\"path\":\"lib\"\x7d]",
        false, false⟩
  else if url =
      "https://gitlab.example/api/v4/groups/45/projects?archived=false&per_page=1000&with_shared=false"
    then
    HttpResult.response
      ⟨200, "[\x7b\"id\":5,\"http_url_to_repo\":\"https://gitlab.example/team/backend/core/deep/x.git\",\"path\":\"x\"\x7d]",
        false, false⟩
  else HttpResult.response ⟨404, "\x7b\"message\":\"404 Not Found\"\x7d", false, false⟩

/-- The sample server, except that listing the projects of group `43` is
refused with status 403. -/
def refusingServer (token url : String) : HttpResult :=
  if url =
      "https://gitlab.example/api/v4/groups/43/projects?archived=false&per_page=1000&with_shared=false"
    then HttpResult.response ⟨403, "\x7b\"message\":\"403 Forbidden\"\x7d", false, false⟩
  else sampleServer token url

/-- A server that knows the group `42`, which has no subgroups, and answers every
other request, the project listing included, with status 200 and an error
object. -/
def brokenListingServer (_token url : String) : HttpResult :=
  if url = "https://gitlab.example/api/v4/groups/42/" then
    HttpResult.response ⟨200, "\x7b\"id\":42,\"path\":\"team\",\"full_path\":\"team\"\x7d", false, false⟩
  else if url = "https://gitlab.example/api/v4/groups/42/subgroups/" then
    HttpResult.response ⟨200, "[]", false, false⟩
  else HttpResult.response ⟨200, "\x7b\"message\":\"500 Internal Server Error\"\x7d", false, false⟩

/-- A server that answers every URL with status 200: a subgroups listing is
empty, any other URL ending in a slash is the detail of group `42`, and any
other URL is a one-project listing. -/
def flatServer (_token url : String) : HttpResult :=
  if "subgroups/".data.isSuffixOf url.data then HttpResult.response ⟨200, "[]", false, false⟩
  else if "/".data.isSuffixOf url.data then
    HttpResult.response ⟨200, "\x7b\"id\":42,\"path\":\"team\",\"full_path\":\"team\"\x7d", false, false⟩
  else
    HttpResult.response
      ⟨200, "[\x7b\"id\":1,\"http_url_to_repo\":\"https://gitlab.example/team/docs.git\",\"path\":\"docs\"\x7d]",
        false, false⟩

/-- A disk on which `os.MkdirAll` succeeds as documented: it creates the
directory and every parent that is missing. A clone leaves the disk as it
found it. -/
def parentMakingDisk : Env where
  http := fun _ _ => HttpResult.transportError
  mkdirAll := fun fs dir => (true, fs ++ (selfAndParents dir).filter (fun d => !fs.contains d))
  gitClone := fun fs _ _ => (true, fs)

/-- Sample globals with a base directory two levels below the root. -/
def mirrorGlobals : Globals := ⟨"token", "/srv/mirror", "https://gitlab.example/api/v4", "42"⟩

end Clonador

/-! # Theorems -/

namespace GoJson

/-! ## The scanner on sample texts -/

set_option maxRecDepth 20000 in
/-- Texts the scanner accepts, as Go's `json.Valid` does. -/
theorem parseJSON_accepts :
    (["null", " null ", "true", "false", "0", "-0", "1.5", "1e5", "1E+5", "1e-5", "1.5e3",
      "0.0", "0e0", "-1.0E-2", "\"\"", "\"a\"", "\"\\n\"", "\"\\uABcd\"", "\"\\\"\"",
      "\"\\\\\"", "\"\\/\"", "[]", "[ ]", "[1]", "[1,2]", "[[]]", "[[[[[[1]]]]]]",
      "[[],[],[[]]]", "[1,[2,[3,[4,[5]]]],6]", "\x7b\x7d", "\x7b \x7d", "\x7b\"a\":1\x7d",
      "\x7b\"a\":1,\"b\":2\x7d", "\x7b\"a\":\x7b\"b\":[\x7b\"c\":1\x7d,2]\x7d\x7d",
      " [ 1 , \x7b \"a\" : [ ] \x7d , null , true , false , \"x\" ] ",
      "\r\n\t [1]\r\n\t "].all (fun s => (parseJSON s).isSome)) = true := by
  decide

set_option maxRecDepth 20000 in
/-- Texts the scanner rejects, as Go's `json.Valid` does. -/
theorem parseJSON_rejects :
    (["", " ", "nul", "nulll", "tru", "00", "01", "-", "1.", ".5", "1e", "1e+", "+1", "1 2",
      "\"a", "\"\\q\"", "\"\\u12\"", "\"\\u12G4\"", "\"\n\"", "\"\t\"", "\"\\\"",
      "[1,]", "[,1]", "[1 2]", "[", "]", "\x7b\"a\":1,\x7d", "\x7b\"a\"\x7d", "\x7b\"a\":\x7d",
      "\x7ba:1\x7d", "\x7b\"a\":1 \"b\":2\x7d", "\x7b\"a\":1\x7d\x7d", "\x7b1:1\x7d",
      "[1]x", "[1] ]", "\u000b[1]"].all (fun s => !(parseJSON s).isSome)) = true := by
  decide

/-! ## The scanner's fuel -/

theorem dropSpace_length_le (cs : List Char) : (dropSpace cs).length ≤ cs.length := by
  induction cs with
  | nil => simp [dropSpace]
  | cons c cs ih =>
    unfold dropSpace
    split_ifs
    · simp only [List.length_cons]; omega
    · exact Nat.le_refl _

theorem spanDigits_length_le (cs : List Char) : (spanDigits cs).2.length ≤ cs.length := by
  induction cs with
  | nil => simp [spanDigits]
  | cons c cs ih =>
    unfold spanDigits
    split_ifs
    · simp only [List.length_cons]; omega
    · exact Nat.le_refl _

theorem scanIntPart_length_le {cs ip r : List Char} (h : scanIntPart cs = some (ip, r)) :
    r.length ≤ cs.length := by
  cases cs with
  | nil => simp [scanIntPart] at h
  | cons c cs =>
    simp only [scanIntPart] at h
    split_ifs at h
    · simp only [Option.some.injEq, Prod.mk.injEq] at h
      rw [← h.2]; simp
    · simp only [Option.some.injEq, Prod.mk.injEq] at h
      rw [← h.2]
      have := spanDigits_length_le cs
      simp only [List.length_cons]; omega

theorem scanFrac_length_le {cs fp r : List Char} (h : scanFrac cs = some (fp, r)) :
    r.length ≤ cs.length := by
  unfold scanFrac at h
  split at h
  · rename_i cs1
    have hle := spanDigits_length_le cs1
    split at h
    · simp at h
    · rename_i ds rest _ heq
      simp only [Option.some.injEq, Prod.mk.injEq] at h
      rw [← h.2]
      rw [heq] at hle
      simp only [List.length_cons] at hle ⊢; omega
  · simp only [Option.some.injEq, Prod.mk.injEq] at h
    rw [← h.2]

theorem scanExp_length_le {cs ep r : List Char} (h : scanExp cs = some (ep, r)) :
    r.length ≤ cs.length := by
  cases cs with
  | nil => simp [scanExp] at h; rw [← h.2]
  | cons c cs =>
    simp only [scanExp] at h
    split_ifs at h
    · cases cs with
      | nil => simp at h
      | cons s cs1 =>
        simp only at h
        split_ifs at h
        · split at h
          · simp at h
          · rename_i ds rest _ heq
            simp only [Option.some.injEq, Prod.mk.injEq] at h
            rw [← h.2]
            have hle := spanDigits_length_le cs1
            rw [heq] at hle
            simp only [List.length_cons] at hle ⊢; omega
        · split at h
          · simp at h
          · rename_i ds rest _ heq
            simp only [Option.some.injEq, Prod.mk.injEq] at h
            rw [← h.2]
            have hle := spanDigits_length_le (s :: cs1)
            rw [heq] at hle
            simp only [List.length_cons] at hle ⊢; omega
    · simp only [Option.some.injEq, Prod.mk.injEq] at h
      rw [← h.2]

theorem scanSign_length_le (cs : List Char) : (scanSign cs).2.length ≤ cs.length := by
  unfold scanSign
  split <;> simp

theorem scanNumber_length_le {cs lit r : List Char} (h : scanNumber cs = some (lit, r)) :
    r.length ≤ cs.length := by
  unfold scanNumber at h
  have hs := scanSign_length_le cs
  split at h
  · simp at h
  · rename_i ip r1 h1
    split at h
    · simp at h
    · rename_i fp r2 h2
      split at h
      · simp at h
      · rename_i ep r3 h3
        simp only [Option.some.injEq, Prod.mk.injEq] at h
        have a := scanIntPart_length_le h1
        have b := scanFrac_length_le h2
        have c := scanExp_length_le h3
        rw [← h.2]
        exact Nat.le_trans c (Nat.le_trans b (Nat.le_trans a hs))

theorem dropLiteral_length_le {ls cs r : List Char} (h : dropLiteral ls cs = some r) :
    r.length ≤ cs.length := by
  induction ls generalizing cs with
  | nil => simp [dropLiteral] at h; rw [h]
  | cons l ls ih =>
    cases cs with
    | nil => simp [dropLiteral] at h
    | cons c cs =>
      simp only [dropLiteral] at h
      split_ifs at h
      have := ih h
      simp only [List.length_cons]; omega

theorem getu4_length {cs : List Char} {u : Nat} (h : getu4 cs = some u) : 5 ≤ cs.length := by
  unfold getu4 at h
  split at h
  · simp only [List.length_cons]; omega
  · simp at h

theorem unquoteU_length {cs after : List Char} {ch : Char}
    (h : unquoteU cs = some (ch, after)) : after.length < cs.length := by
  unfold unquoteU at h
  split at h
  · simp at h
  · rename_i u hu
    have h5 := getu4_length hu
    have hd : (cs.drop 5).length < cs.length := by simp only [List.length_drop]; omega
    split_ifs at h
    · split at h
      · rename_i more hmore
        have hm : more.length < (cs.drop 5).length := by rw [hmore]; simp
        have hd5 : (more.drop 5).length ≤ more.length := by simp
        split at h
        · split_ifs at h
          · simp only [Option.some.injEq, Prod.mk.injEq] at h
            rw [← h.2]; omega
          · simp only [Option.some.injEq, Prod.mk.injEq] at h
            rw [← h.2]; exact hd
        · simp only [Option.some.injEq, Prod.mk.injEq] at h
          rw [← h.2]; exact hd
      · simp only [Option.some.injEq, Prod.mk.injEq] at h
        rw [← h.2]; exact hd
    · simp only [Option.some.injEq, Prod.mk.injEq] at h
      rw [← h.2]; exact hd

/-- The fuel of `scanString` is never what stops it: any two amounts above the
length of the text give the same result. -/
theorem scanString_fuel (f1 : Nat) : ∀ (f2 : Nat) (cs acc : List Char),
    cs.length < f1 → cs.length < f2 → scanString f1 cs acc = scanString f2 cs acc := by
  induction f1 with
  | zero => intro f2 cs acc h1; omega
  | succ g1 ih =>
    intro f2 cs acc h1 h2
    cases f2 with
    | zero => omega
    | succ g2 =>
      cases cs with
      | nil => simp [scanString]
      | cons c cs =>
        simp only [List.length_cons] at h1 h2
        simp only [scanString]
        refine ite_congr rfl (fun _ => rfl) (fun _ => ?_)
        refine ite_congr rfl (fun _ => ?_) (fun _ => ?_)
        · cases cs with
          | nil => rfl
          | cons e rest =>
            simp only [List.length_cons] at h1 h2
            simp only
            refine ite_congr rfl (fun _ => ih _ _ _ (by omega) (by omega)) (fun _ => ?_)
            refine ite_congr rfl (fun _ => ih _ _ _ (by omega) (by omega)) (fun _ => ?_)
            refine ite_congr rfl (fun _ => ih _ _ _ (by omega) (by omega)) (fun _ => ?_)
            refine ite_congr rfl (fun _ => ih _ _ _ (by omega) (by omega)) (fun _ => ?_)
            refine ite_congr rfl (fun _ => ih _ _ _ (by omega) (by omega)) (fun _ => ?_)
            refine ite_congr rfl (fun _ => ih _ _ _ (by omega) (by omega)) (fun _ => ?_)
            refine ite_congr rfl (fun _ => ?_) (fun _ => rfl)
            cases hq : unquoteU (e :: rest) with
            | none => rfl
            | some r =>
              obtain ⟨ch, after⟩ := r
              have := unquoteU_length hq
              simp only [List.length_cons] at this
              exact ih _ _ _ (by omega) (by omega)
        · exact ite_congr rfl (fun _ => rfl) (fun _ => ih _ _ _ (by omega) (by omega))

theorem scanString_length {f : Nat} : ∀ {cs acc : List Char} {s : String} {rest : List Char},
    scanString f cs acc = some (s, rest) → rest.length < cs.length := by
  induction f with
  | zero => intro cs acc s rest h; simp [scanString] at h
  | succ g ih =>
    intro cs acc s rest h
    cases cs with
    | nil => simp [scanString] at h
    | cons c cs =>
      simp only [scanString] at h
      simp only [List.length_cons]
      by_cases hq : (c == '"') = true
      · rw [if_pos hq] at h
        simp only [Option.some.injEq, Prod.mk.injEq] at h
        rw [← h.2]; omega
      · rw [if_neg hq] at h
        by_cases hb : (c == '\\') = true
        · rw [if_pos hb] at h
          cases cs with
          | nil => simp at h
          | cons e tl =>
            simp only at h
            simp only [List.length_cons]
            have step : ∀ a, scanString g tl a = some (s, rest) → rest.length < tl.length + 1 + 1 :=
              fun a ha => Nat.lt_of_lt_of_le (ih ha) (by omega)
            by_cases c1 : (e == '"' || e == '\\' || e == '/') = true
            · rw [if_pos c1] at h; exact step _ h
            · rw [if_neg c1] at h
              by_cases c2 : (e == 'b') = true
              · rw [if_pos c2] at h; exact step _ h
              · rw [if_neg c2] at h
                by_cases c3 : (e == 'f') = true
                · rw [if_pos c3] at h; exact step _ h
                · rw [if_neg c3] at h
                  by_cases c4 : (e == 'n') = true
                  · rw [if_pos c4] at h; exact step _ h
                  · rw [if_neg c4] at h
                    by_cases c5 : (e == 'r') = true
                    · rw [if_pos c5] at h; exact step _ h
                    · rw [if_neg c5] at h
                      by_cases c6 : (e == 't') = true
                      · rw [if_pos c6] at h; exact step _ h
                      · rw [if_neg c6] at h
                        by_cases c7 : (e == 'u') = true
                        · rw [if_pos c7] at h
                          cases hu : unquoteU (e :: tl) with
                          | none => rw [hu] at h; simp at h
                          | some r =>
                            obtain ⟨ch, after⟩ := r
                            rw [hu] at h
                            simp only at h
                            have h1 := unquoteU_length hu
                            have h2 := ih h
                            simp only [List.length_cons] at h1
                            omega
                        · rw [if_neg c7] at h; simp at h
        · rw [if_neg hb] at h
          by_cases hc : c.toNat < 0x20
          · rw [if_pos hc] at h; simp at h
          · rw [if_neg hc] at h
            have := ih h
            omega

theorem tail_dropSpace_length_lt {cs : List Char} {c : Char}
    (h : ((dropSpace cs).head? == some c) = true) : (dropSpace cs).tail.length < cs.length := by
  have := dropSpace_length_le cs
  cases hd : dropSpace cs with
  | nil => rw [hd] at h; simp at h
  | cons x xs =>
    rw [hd] at this
    simp only [List.tail_cons, List.length_cons] at this ⊢
    omega

theorem exists_succ_of_bound {f' a b : Nat} (h : a + 1 ≤ f' + b) (hb : b ≤ a) :
    ∃ g', f' = g' + 1 := ⟨f' - 1, by omega⟩

/-- Whatever a scanning function returns with some fuel, it returns with any
fuel that exceeds the length of the text it has consumed; and it never returns
more text than it was given. -/
theorem scan_fuel (f : Nat) :
    (∀ d cs v rest, scanValue f d cs = some (v, rest) →
      rest.length ≤ cs.length ∧
        ∀ f', cs.length + 1 ≤ f' + rest.length → scanValue f' d cs = some (v, rest)) ∧
    (∀ d cs acc v rest, scanElems f d cs acc = some (v, rest) →
      rest.length ≤ cs.length ∧
        ∀ f', cs.length + 1 ≤ f' + rest.length → scanElems f' d cs acc = some (v, rest)) ∧
    (∀ d cs acc v rest, scanMembers f d cs acc = some (v, rest) →
      rest.length ≤ cs.length ∧
        ∀ f', cs.length + 1 ≤ f' + rest.length → scanMembers f' d cs acc = some (v, rest)) := by
  induction f with
  | zero =>
    refine ⟨?_, ?_, ?_⟩ <;> intros <;> simp_all [scanValue, scanElems, scanMembers]
  | succ g ih =>
    obtain ⟨ihV, ihE, ihM⟩ := ih
    refine ⟨?_, ?_, ?_⟩
    · intro d cs v rest h
      have hds := dropSpace_length_le cs
      simp only [scanValue] at h
      cases hcs : dropSpace cs with
      | nil => rw [hcs] at h; simp at h
      | cons c tl =>
        rw [hcs] at h hds
        simp only [List.length_cons] at hds
        simp only at h
        -- a result that does not depend on the fuel
        have leaf : ∀ (r : Option (JSON × List Char)), r = some (v, rest) →
            rest.length ≤ tl.length →
            (∀ g', scanValue (g' + 1) d cs = r) →
            rest.length ≤ cs.length ∧
              ∀ f', cs.length + 1 ≤ f' + rest.length → scanValue f' d cs = some (v, rest) := by
          intro r hr hle hun
          refine ⟨by omega, fun f' hf' => ?_⟩
          obtain ⟨g', rfl⟩ := exists_succ_of_bound hf' (by omega)
          rw [hun g', hr]
        by_cases c1 : (c == '[') = true
        · rw [if_pos c1] at h
          by_cases hd : d ≥ maxNestingDepth
          · rw [if_pos hd] at h; simp at h
          · rw [if_neg hd] at h
            by_cases hb : ((dropSpace tl).head? == some ']') = true
            · rw [if_pos hb] at h
              have hlt := tail_dropSpace_length_lt hb
              refine leaf _ h ?_ ?_
              · simp only [Option.some.injEq, Prod.mk.injEq] at h
                rw [← h.2]; omega
              · intro g'
                simp only [scanValue, hcs]
                rw [if_pos c1, if_neg hd, if_pos hb]
            · rw [if_neg hb] at h
              obtain ⟨hle, hst⟩ := ihE _ _ _ _ _ h
              refine ⟨by omega, fun f' hf' => ?_⟩
              obtain ⟨g', rfl⟩ := exists_succ_of_bound hf' (by omega)
              simp only [scanValue, hcs]
              rw [if_pos c1, if_neg hd, if_neg hb]
              exact hst g' (by omega)
        · rw [if_neg c1] at h
          by_cases c2 : (c == '{') = true
          · rw [if_pos c2] at h
            by_cases hd : d ≥ maxNestingDepth
            · rw [if_pos hd] at h; simp at h
            · rw [if_neg hd] at h
              by_cases hb : ((dropSpace tl).head? == some '}') = true
              · rw [if_pos hb] at h
                have hlt := tail_dropSpace_length_lt hb
                refine leaf _ h ?_ ?_
                · simp only [Option.some.injEq, Prod.mk.injEq] at h
                  rw [← h.2]; omega
                · intro g'
                  simp only [scanValue, hcs]
                  rw [if_neg c1, if_pos c2, if_neg hd, if_pos hb]
              · rw [if_neg hb] at h
                obtain ⟨hle, hst⟩ := ihM _ _ _ _ _ h
                refine ⟨by omega, fun f' hf' => ?_⟩
                obtain ⟨g', rfl⟩ := exists_succ_of_bound hf' (by omega)
                simp only [scanValue, hcs]
                rw [if_neg c1, if_pos c2, if_neg hd, if_neg hb]
                exact hst g' (by omega)
          · rw [if_neg c2] at h
            by_cases c3 : (c == '"') = true
            · rw [if_pos c3] at h
              refine leaf _ h ?_ ?_
              · cases hs : scanString (tl.length + 1) tl [] with
                | none => rw [hs] at h; simp at h
                | some r =>
                  obtain ⟨s, after⟩ := r
                  rw [hs] at h
                  simp only [Option.some.injEq, Prod.mk.injEq] at h
                  have := scanString_length hs
                  rw [← h.2]; omega
              · intro g'
                simp only [scanValue, hcs]
                rw [if_neg c1, if_neg c2, if_pos c3]
            · rw [if_neg c3] at h
              by_cases c4 : (c == 't') = true
              · rw [if_pos c4] at h
                refine leaf _ h ?_ ?_
                · cases hl : dropLiteral ['r', 'u', 'e'] tl with
                  | none => rw [hl] at h; simp at h
                  | some r =>
                    rw [hl] at h
                    simp only [Option.map_some', Option.some.injEq, Prod.mk.injEq] at h
                    have := dropLiteral_length_le hl
                    rw [← h.2]; exact this
                · intro g'
                  simp only [scanValue, hcs]
                  rw [if_neg c1, if_neg c2, if_neg c3, if_pos c4]
              · rw [if_neg c4] at h
                by_cases c5 : (c == 'f') = true
                · rw [if_pos c5] at h
                  refine leaf _ h ?_ ?_
                  · cases hl : dropLiteral ['a', 'l', 's', 'e'] tl with
                    | none => rw [hl] at h; simp at h
                    | some r =>
                      rw [hl] at h
                      simp only [Option.map_some', Option.some.injEq, Prod.mk.injEq] at h
                      have := dropLiteral_length_le hl
                      rw [← h.2]; exact this
                  · intro g'
                    simp only [scanValue, hcs]
                    rw [if_neg c1, if_neg c2, if_neg c3, if_neg c4, if_pos c5]
                · rw [if_neg c5] at h
                  by_cases c6 : (c == 'n') = true
                  · rw [if_pos c6] at h
                    refine leaf _ h ?_ ?_
                    · cases hl : dropLiteral ['u', 'l', 'l'] tl with
                      | none => rw [hl] at h; simp at h
                      | some r =>
                        rw [hl] at h
                        simp only [Option.map_some', Option.some.injEq, Prod.mk.injEq] at h
                        have := dropLiteral_length_le hl
                        rw [← h.2]; exact this
                    · intro g'
                      simp only [scanValue, hcs]
                      rw [if_neg c1, if_neg c2, if_neg c3, if_neg c4, if_neg c5, if_pos c6]
                  · rw [if_neg c6] at h
                    by_cases c7 : (c == '-' || isDigit c) = true
                    · rw [if_pos c7] at h
                      cases hn : scanNumber (c :: tl) with
                      | none => rw [hn] at h; simp at h
                      | some r =>
                        obtain ⟨lit, after⟩ := r
                        rw [hn] at h
                        simp only [Option.map_some', Option.some.injEq, Prod.mk.injEq] at h
                        have hle := scanNumber_length_le hn
                        simp only [List.length_cons] at hle
                        refine ⟨by rw [← h.2]; omega, fun f' hf' => ?_⟩
                        obtain ⟨g', rfl⟩ := exists_succ_of_bound hf' (by rw [← h.2]; omega)
                        simp only [scanValue, hcs]
                        rw [if_neg c1, if_neg c2, if_neg c3, if_neg c4, if_neg c5, if_neg c6,
                          if_pos c7, hn]
                        simp only [Option.map_some', h.1, h.2]
                    · rw [if_neg c7] at h; simp at h
    · intro d cs acc v rest h
      simp only [scanElems] at h
      cases hv : scanValue g d cs with
      | none => rw [hv] at h; simp at h
      | some r =>
        obtain ⟨v1, r1⟩ := r
        rw [hv] at h
        simp only at h
        obtain ⟨hle1, hst1⟩ := ihV _ _ _ _ hv
        by_cases k1 : ((dropSpace r1).head? == some ',') = true
        · rw [if_pos k1] at h
          have hlt := tail_dropSpace_length_lt k1
          obtain ⟨hle2, hst2⟩ := ihE _ _ _ _ _ h
          refine ⟨by omega, fun f' hf' => ?_⟩
          obtain ⟨g', rfl⟩ := exists_succ_of_bound hf' (by omega)
          simp only [scanElems]
          rw [hst1 g' (by omega)]
          simp only
          rw [if_pos k1]
          exact hst2 g' (by omega)
        · rw [if_neg k1] at h
          by_cases k2 : ((dropSpace r1).head? == some ']') = true
          · rw [if_pos k2] at h
            have hlt := tail_dropSpace_length_lt k2
            simp only [Option.some.injEq, Prod.mk.injEq] at h
            have hr : rest.length + 1 ≤ r1.length := by rw [← h.2]; omega
            refine ⟨by omega, fun f' hf' => ?_⟩
            obtain ⟨g', rfl⟩ := exists_succ_of_bound hf' (by omega)
            simp only [scanElems]
            rw [hst1 g' (by omega)]
            simp only
            rw [if_neg k1, if_pos k2, h.1, h.2]
          · rw [if_neg k2] at h; simp at h
    · intro d cs acc v rest h
      simp only [scanMembers] at h
      by_cases q1 : ((dropSpace cs).head? == some '"') = true
      · rw [if_pos q1] at h
        have hq := tail_dropSpace_length_lt q1
        cases hs : scanString (dropSpace cs).length (dropSpace cs).tail [] with
        | none => rw [hs] at h; simp at h
        | some r =>
          obtain ⟨key, afterKey⟩ := r
          rw [hs] at h
          simp only at h
          have hk := scanString_length hs
          by_cases q2 : ((dropSpace afterKey).head? == some ':') = true
          · rw [if_pos q2] at h
            have hc := tail_dropSpace_length_lt q2
            cases hv : scanValue g d (dropSpace afterKey).tail with
            | none => rw [hv] at h; simp at h
            | some r =>
              obtain ⟨v1, r1⟩ := r
              rw [hv] at h
              simp only at h
              obtain ⟨hle1, hst1⟩ := ihV _ _ _ _ hv
              by_cases k1 : ((dropSpace r1).head? == some ',') = true
              · rw [if_pos k1] at h
                have hlt := tail_dropSpace_length_lt k1
                obtain ⟨hle2, hst2⟩ := ihM _ _ _ _ _ h
                refine ⟨by omega, fun f' hf' => ?_⟩
                obtain ⟨g', rfl⟩ := exists_succ_of_bound hf' (by omega)
                simp only [scanMembers]
                rw [if_pos q1, hs]
                simp only
                rw [if_pos q2, hst1 g' (by omega)]
                simp only
                rw [if_pos k1]
                exact hst2 g' (by omega)
              · rw [if_neg k1] at h
                by_cases k2 : ((dropSpace r1).head? == some '}') = true
                · rw [if_pos k2] at h
                  have hlt := tail_dropSpace_length_lt k2
                  simp only [Option.some.injEq, Prod.mk.injEq] at h
                  have hr : rest.length + 1 ≤ r1.length := by rw [← h.2]; omega
                  refine ⟨by omega, fun f' hf' => ?_⟩
                  obtain ⟨g', rfl⟩ := exists_succ_of_bound hf' (by omega)
                  simp only [scanMembers]
                  rw [if_pos q1, hs]
                  simp only
                  rw [if_pos q2, hst1 g' (by omega)]
                  simp only
                  rw [if_neg k1, if_pos k2, h.1, h.2]
                · rw [if_neg k2] at h; simp at h
          · rw [if_neg q2] at h; simp at h
      · rw [if_neg q1] at h; simp at h

/-- The fuel of the scanner is never what stops it: with any fuel above the
length of the text, `scanValue` gives what it gives with the fuel `parseJSON`
passes. -/
theorem scanValue_fuel (f d : Nat) (cs : List Char) (hf : cs.length + 1 ≤ f) :
    scanValue f d cs = scanValue (cs.length + 1) d cs := by
  cases h1 : scanValue f d cs with
  | some r =>
    obtain ⟨v, rest⟩ := r
    obtain ⟨_, hst⟩ := (scan_fuel f).1 _ _ _ _ h1
    exact (hst _ (by omega)).symm
  | none =>
    cases h2 : scanValue (cs.length + 1) d cs with
    | none => rfl
    | some r =>
      obtain ⟨v, rest⟩ := r
      obtain ⟨_, hst⟩ := (scan_fuel _).1 _ _ _ _ h2
      rw [hst f (by omega)] at h1
      cases h1

/-- The result of `parseJSON` is the result of scanning with any larger fuel. -/
theorem parseJSON_fuel (body : String) (f : Nat) (hf : body.length + 1 ≤ f) :
    (match scanValue f 0 body.data with
      | none => none
      | some (v, rest) =>
        match dropSpace rest with
        | [] => some v
        | _ :: _ => none) = parseJSON body := by
  have hlen : body.data.length = body.length := rfl
  unfold parseJSON
  rw [scanValue_fuel f 0 body.data (by omega), hlen]

end GoJson

namespace GoPath

/-! ## The model against the test tables of Go's `path` package -/

/-- The model of `path.Clean` gives the results that the test table of Go's
`path` package expects. -/
theorem Clean_table :
    [Clean "", Clean "abc", Clean "abc/def", Clean "a/b/c", Clean ".", Clean "..",
      Clean "../..", Clean "../../abc", Clean "/abc", Clean "/"] =
      [".", "abc", "abc/def", "a/b/c", ".", "..", "../..", "../../abc", "/abc", "/"] ∧
    [Clean "abc/", Clean "abc/def/", Clean "a/b/c/", Clean "./", Clean "../", Clean "../../",
      Clean "/abc/"] = ["abc", "abc/def", "a/b/c", ".", "..", "../..", "/abc"] ∧
    [Clean "abc//def//ghi", Clean "//abc", Clean "///abc", Clean "//abc//", Clean "abc//"] =
      ["abc/def/ghi", "/abc", "/abc", "/abc", "abc"] ∧
    [Clean "abc/./def", Clean "/./abc/def", Clean "abc/."] = ["abc/def", "/abc/def", "abc"] ∧
    [Clean "abc/def/ghi/../jkl", Clean "abc/def/../ghi/../jkl", Clean "abc/def/..",
      Clean "abc/def/../..", Clean "/abc/def/../..", Clean "abc/def/../../..",
      Clean "/abc/def/../../..", Clean "abc/def/../../../ghi/jkl/../../../mno"] =
      ["abc/def/jkl", "abc/jkl", "abc", ".", "/", "..", "/", "../../mno"] ∧
    [Clean "abc/./../def", Clean "abc//./../def", Clean "abc/../../././../def"] =
      ["def", "def", "../../def"] := by
  refine ⟨by decide, by decide, by decide, by decide, by decide, by decide⟩

/-- The model of `path.Join` gives the results that the test table of Go's
`path` package expects. -/
theorem Join_table :
    [Join [], Join [""], Join ["a"], Join ["a", "b"], Join ["a", ""], Join ["", "b"],
      Join ["/", "a"], Join ["/", ""], Join ["a/", "b"], Join ["a/", ""], Join ["", ""]] =
      ["", "", "a", "a/b", "a", "b", "/a", "/", "a/b", "a", ""] := by
  decide

/-! ## Path elements -/

theorem splitSlash_ne_nil (p : List Char) : splitSlash p ≠ [] := by
  cases p with
  | nil => simp [splitSlash]
  | cons c cs =>
    unfold splitSlash
    split_ifs
    · simp
    · split <;> simp

theorem splitSlash_append (a b : List Char) :
    splitSlash (a ++ '/' :: b) = splitSlash a ++ splitSlash b := by
  induction a with
  | nil => simp [splitSlash]
  | cons c cs ih =>
    by_cases hc : c = '/'
    · simp [splitSlash, hc, ih]
    · have hne := splitSlash_ne_nil cs
      rw [List.cons_append, splitSlash, if_neg hc, ih, splitSlash, if_neg hc]
      cases hs : splitSlash cs with
      | nil => exact absurd hs hne
      | cons e es => simp

theorem no_slash_of_mem_splitSlash (p e : List Char) (he : e ∈ splitSlash p) : '/' ∉ e := by
  induction p generalizing e with
  | nil => simp [splitSlash] at he; simp [he]
  | cons c cs ih =>
    by_cases hc : c = '/'
    · simp only [splitSlash, hc, if_true, List.mem_cons] at he
      rcases he with rfl | he
      · simp
      · exact ih e he
    · rw [splitSlash, if_neg hc] at he
      cases hs : splitSlash cs with
      | nil => exact absurd hs (splitSlash_ne_nil cs)
      | cons x xs =>
        rw [hs] at he ih
        simp only [List.mem_cons] at he
        rcases he with rfl | he
        · have := ih x (by simp)
          simp only [List.mem_cons, not_or]
          exact ⟨fun h => hc h.symm, this⟩
        · exact ih e (by simp [he])

theorem splitSlash_of_no_slash (e : List Char) (h : '/' ∉ e) : splitSlash e = [e] := by
  induction e with
  | nil => simp [splitSlash]
  | cons c cs ih =>
    simp only [List.mem_cons, not_or] at h
    have hc : c ≠ '/' := fun hc => h.1 hc.symm
    rw [splitSlash, if_neg hc, ih h.2]

theorem splitSlash_joinSlash (l : List (List Char)) (hne : l ≠ [])
    (h : ∀ e ∈ l, '/' ∉ e) : splitSlash (joinSlash l) = l := by
  induction l with
  | nil => exact absurd rfl hne
  | cons e es ih =>
    cases es with
    | nil => simpa [joinSlash] using splitSlash_of_no_slash e (h e (by simp))
    | cons x xs =>
      rw [joinSlash, splitSlash_append, splitSlash_of_no_slash e (h e (by simp)),
        ih (by simp) (fun y hy => h y (List.mem_cons_of_mem _ hy))]
      · rfl
      · simp

theorem cleanStep_kept (rooted : Bool) (kept : List (List Char)) (e : List Char)
    (hk : ∀ x ∈ kept, x ≠ [] ∧ x ≠ ['.'] ∧ '/' ∉ x) (he : '/' ∉ e) :
    ∀ x ∈ cleanStep rooted kept e, x ≠ [] ∧ x ≠ ['.'] ∧ '/' ∉ x := by
  have hcons : e ≠ [] → e ≠ ['.'] → ∀ x ∈ e :: kept, x ≠ [] ∧ x ≠ ['.'] ∧ '/' ∉ x := by
    intro h1 h2 x hx
    rcases List.mem_cons.mp hx with rfl | hx
    · exact ⟨h1, h2, he⟩
    · exact hk x hx
  unfold cleanStep
  by_cases h1 : e = [] ∨ e = ['.']
  · rw [if_pos h1]; exact hk
  · rw [if_neg h1]
    simp only [not_or] at h1
    by_cases h2 : e = ['.', '.']
    · rw [if_pos h2]
      cases kept with
      | nil => cases rooted <;> simp [h2]
      | cons top below =>
        simp only
        by_cases h3 : top = ['.', '.']
        · rw [if_pos h3]
          cases rooted
          · simpa using hcons h1.1 h1.2
          · simpa using hk
        · rw [if_neg h3]
          intro x hx
          exact hk x (List.mem_cons_of_mem _ hx)
    · rw [if_neg h2]
      exact hcons h1.1 h1.2

theorem foldl_cleanStep_kept (rooted : Bool) (els kept : List (List Char))
    (hk : ∀ x ∈ kept, x ≠ [] ∧ x ≠ ['.'] ∧ '/' ∉ x) (he : ∀ e ∈ els, '/' ∉ e) :
    ∀ x ∈ els.foldl (cleanStep rooted) kept, x ≠ [] ∧ x ≠ ['.'] ∧ '/' ∉ x := by
  induction els generalizing kept with
  | nil => simpa using hk
  | cons e es ih =>
    rw [List.foldl_cons]
    exact ih _ (cleanStep_kept rooted kept e hk (he e (by simp)))
      (fun x hx => he x (List.mem_cons_of_mem _ hx))

/-- Every element `path.Clean` keeps is a proper name: not empty, not `.`, and
without a slash. -/
theorem cleanElems_kept (rooted : Bool) (p : List Char) :
    ∀ x ∈ cleanElems rooted p, x ≠ [] ∧ x ≠ ['.'] ∧ '/' ∉ x := by
  intro x hx
  rw [cleanElems, List.mem_reverse] at hx
  exact foldl_cleanStep_kept rooted (splitSlash p) [] (by simp)
    (no_slash_of_mem_splitSlash p) x hx

theorem filter_kept_eq (l : List (List Char)) (h : ∀ x ∈ l, x ≠ [] ∧ x ≠ ['.'] ∧ '/' ∉ x) :
    l.filter (fun e => !(e == []) && !(e == ['.'])) = l := by
  rw [List.filter_eq_self]
  intro x hx
  have := h x hx
  simp [this.1, this.2.1]

theorem pathElems_mk_joinSlash (l : List (List Char))
    (h : ∀ x ∈ l, x ≠ [] ∧ x ≠ ['.'] ∧ '/' ∉ x) (hne : l ≠ []) :
    pathElems (String.mk (joinSlash l)) = l := by
  rw [pathElems, splitSlash_joinSlash l hne (fun e he => (h e he).2.2), filter_kept_eq l h]

/-- The elements of the cleaned path, read back from the string, are the
elements that were kept. -/
theorem pathElems_Clean (p : String) (hp : p.data ≠ []) :
    pathElems (Clean p) = cleanElems (isRooted p.data) p.data := by
  have hk := cleanElems_kept (isRooted p.data) p.data
  unfold Clean
  rw [if_neg hp]
  by_cases hnil : cleanElems (isRooted p.data) p.data = []
  · simp only [hnil, joinSlash]
    cases isRooted p.data <;> simp [pathElems, splitSlash]
  · by_cases hr : isRooted p.data = true
    · simp only [hr, if_true]
      have : pathElems (String.mk ('/' :: joinSlash (cleanElems true p.data))) =
          pathElems (String.mk (joinSlash (cleanElems true p.data))) := by
        simp [pathElems, splitSlash]
      rw [this]
      rw [hr] at hk hnil
      exact pathElems_mk_joinSlash _ hk hnil
    · have hr' : isRooted p.data = false := by simpa using hr
      rw [hr'] at hk hnil ⊢
      have hj : joinSlash (cleanElems false p.data) ≠ [] := by
        cases hc : cleanElems false p.data with
        | nil => exact absurd hc hnil
        | cons e es =>
          have he := (hk e (by simp [hc])).1
          cases es with
          | nil => simpa [joinSlash] using he
          | cons x xs => simp [joinSlash, he]
      simp only [Bool.false_eq_true, if_false, if_neg hj]
      exact pathElems_mk_joinSlash _ hk hnil

theorem isRooted_joinSlash_kept (l : List (List Char))
    (h : ∀ x ∈ l, x ≠ [] ∧ x ≠ ['.'] ∧ '/' ∉ x) : isRooted (joinSlash l) = false := by
  cases l with
  | nil => simp [joinSlash, isRooted]
  | cons e es =>
    have he := h e (by simp)
    cases e with
    | nil => exact absurd rfl he.1
    | cons c cs =>
      have hc : c ≠ '/' := by
        intro hc
        exact he.2.2 (by simp [hc])
      cases es <;> simp [joinSlash, isRooted, hc]

/-- Cleaning keeps a rooted path rooted and a relative path relative. -/
theorem isRooted_Clean (p : String) (hp : p.data ≠ []) :
    isRooted (Clean p).data = isRooted p.data := by
  have hk := cleanElems_kept (isRooted p.data) p.data
  unfold Clean
  rw [if_neg hp]
  by_cases hr : isRooted p.data = true
  · rw [hr]
    simp [isRooted]
  · have hr' : isRooted p.data = false := by simpa using hr
    rw [hr'] at hk ⊢
    simp only [Bool.false_eq_true, if_false]
    split_ifs
    · simp [isRooted]
    · exact isRooted_joinSlash_kept _ hk

/-- Without `..` among the elements, cleaning only appends: each proper element
is kept on top of what was kept before. -/
theorem foldl_cleanStep_of_no_dotdot (rooted : Bool) (els kept : List (List Char))
    (h : ∀ e ∈ els, e ≠ ['.', '.']) :
    els.foldl (cleanStep rooted) kept =
      (els.filter (fun e => !(e == []) && !(e == ['.']))).reverse ++ kept := by
  induction els generalizing kept with
  | nil => simp
  | cons e es ih =>
    have he : e ≠ ['.', '.'] := h e (by simp)
    rw [List.foldl_cons, ih _ (fun x hx => h x (List.mem_cons_of_mem _ hx))]
    by_cases h1 : e = [] ∨ e = ['.']
    · rcases h1 with rfl | rfl <;> simp [cleanStep]
    · have h1' := h1
      simp only [not_or] at h1'
      simp [cleanStep, h1, he, h1'.1, h1'.2, List.filter_cons]

theorem isWithin_self (p : String) : isWithin p p = true := by
  simp [isWithin, List.isPrefixOf_iff_prefix]

/-- Joining a non-empty base directory with a path that has no `..` element
gives the cleaned base directory or a descendant of it. -/
theorem Join_within (base rel : String) (hb : base ≠ "")
    (hrel : ∀ e ∈ splitSlash rel.data, e ≠ ['.', '.']) :
    isWithin (Clean base) (Join [base, rel]) = true := by
  have hbd : base.data ≠ [] := by
    intro h
    apply hb
    cases base
    simp_all
  by_cases hr : rel.data = []
  · have : Join [base, rel] = Clean base := by
      simp [Join, joinNonEmpty, hbd, hr]
    rw [this]
    exact isWithin_self _
  · have hj : Join [base, rel] = Clean (String.mk (base.data ++ '/' :: rel.data)) := by
      simp [Join, joinNonEmpty, hbd, hr]
    have hroot : isRooted (base.data ++ '/' :: rel.data) = isRooted base.data := by
      cases hd : base.data with
      | nil => exact absurd hd hbd
      | cons c cs => simp [isRooted]
    have hne : (String.mk (base.data ++ '/' :: rel.data)).data ≠ [] := by simp
    have e1 : pathElems (Join [base, rel]) =
        cleanElems (isRooted base.data) base.data ++
          (splitSlash rel.data).filter (fun e => !(e == []) && !(e == ['.'])) := by
      rw [hj, pathElems_Clean _ hne]
      simp only [hroot]
      rw [cleanElems, splitSlash_append, List.foldl_append,
        foldl_cleanStep_of_no_dotdot _ _ _ hrel, cleanElems]
      simp
    have e2 : isRooted (Join [base, rel]).data = isRooted base.data := by
      rw [hj, isRooted_Clean _ hne]
      exact hroot
    unfold isWithin
    rw [e1, e2, pathElems_Clean base hbd, isRooted_Clean base hbd]
    simp only [beq_self_eq_true, Bool.true_and, List.drop_left, Bool.and_eq_true,
      Bool.not_eq_true', List.isPrefixOf_iff_prefix]
    refine ⟨List.prefix_append _ _, ?_⟩
    rw [← Bool.not_eq_true]
    intro hc
    have hmem := List.elem_iff.mp hc
    exact hrel _ (List.mem_filter.mp hmem).1 rfl

/-! ## Cleaning a cleaned path -/

theorem cleanStep_rooted_no_dotdot (kept : List (List Char)) (e : List Char)
    (hk : ['.', '.'] ∉ kept) : ['.', '.'] ∉ cleanStep true kept e := by
  unfold cleanStep
  by_cases h1 : e = [] ∨ e = ['.']
  · rw [if_pos h1]; exact hk
  · rw [if_neg h1]
    by_cases h2 : e = ['.', '.']
    · rw [if_pos h2]
      cases kept with
      | nil => simp
      | cons top below =>
        simp only
        by_cases h3 : top = ['.', '.']
        · rw [if_pos h3]; simpa using hk
        · rw [if_neg h3]
          intro hm
          exact hk (List.mem_cons_of_mem _ hm)
    · rw [if_neg h2]
      intro hm
      rcases List.mem_cons.mp hm with h | h
      · exact h2 h.symm
      · exact hk h

theorem cleanStep_chain (rooted : Bool) (kept : List (List Char)) (e : List Char)
    (hk : kept.Chain' (fun a b => a = ['.', '.'] → b = ['.', '.'])) :
    (cleanStep rooted kept e).Chain' (fun a b => a = ['.', '.'] → b = ['.', '.']) := by
  unfold cleanStep
  by_cases h1 : e = [] ∨ e = ['.']
  · rw [if_pos h1]; exact hk
  · rw [if_neg h1]
    by_cases h2 : e = ['.', '.']
    · rw [if_pos h2]
      cases kept with
      | nil => cases rooted <;> simp
      | cons top below =>
        simp only
        by_cases h3 : top = ['.', '.']
        · rw [if_pos h3]
          cases rooted
          · simp only [Bool.false_eq_true, if_false]
            exact List.Chain'.cons (fun _ => h3) hk
          · simpa using hk
        · rw [if_neg h3]
          exact hk.tail
    · rw [if_neg h2]
      cases kept with
      | nil => simp
      | cons top below => exact List.Chain'.cons (fun h => absurd h h2) hk

theorem foldl_cleanStep_shape (rooted : Bool) (els kept : List (List Char))
    (h1 : rooted = true → ['.', '.'] ∉ kept)
    (h2 : kept.Chain' (fun a b => a = ['.', '.'] → b = ['.', '.'])) :
    (rooted = true → ['.', '.'] ∉ els.foldl (cleanStep rooted) kept) ∧
    (els.foldl (cleanStep rooted) kept).Chain' (fun a b => a = ['.', '.'] → b = ['.', '.']) := by
  induction els generalizing kept with
  | nil => exact ⟨h1, h2⟩
  | cons e es ih =>
    rw [List.foldl_cons]
    apply ih
    · intro hr
      subst hr
      exact cleanStep_rooted_no_dotdot kept e (h1 rfl)
    · exact cleanStep_chain rooted kept e h2

/-- Running the cleaning steps over kept elements, first kept first, rebuilds
the same kept elements. -/
theorem foldl_cleanStep_kept_self (rooted : Bool) (kept : List (List Char))
    (hk : ∀ x ∈ kept, x ≠ [] ∧ x ≠ ['.'] ∧ '/' ∉ x)
    (h1 : rooted = true → ['.', '.'] ∉ kept)
    (h2 : kept.Chain' (fun a b => a = ['.', '.'] → b = ['.', '.'])) :
    kept.reverse.foldl (cleanStep rooted) [] = kept := by
  induction kept with
  | nil => rfl
  | cons top below ih =>
    rw [List.reverse_cons, List.foldl_append,
      ih (fun x hx => hk x (List.mem_cons_of_mem _ hx))
        (fun hr hm => h1 hr (List.mem_cons_of_mem _ hm)) h2.tail]
    have ht := hk top (by simp)
    simp only [List.foldl_cons, List.foldl_nil]
    unfold cleanStep
    rw [if_neg (by simp [ht.1, ht.2.1])]
    by_cases hd : top = ['.', '.']
    · rw [if_pos hd]
      have hr : rooted = false := by
        cases rooted
        · rfl
        · exact absurd (by simp [hd]) (h1 rfl)
      cases below with
      | nil => simp [hr, hd]
      | cons b bs =>
        have hb : b = ['.', '.'] := (List.chain'_cons.mp h2).1 hd
        simp [hr, hb, hd]
    · rw [if_neg hd]

theorem Clean_data_ne_nil (p : String) : (Clean p).data ≠ [] := by
  unfold Clean
  by_cases h1 : p.data = []
  · rw [if_pos h1]; decide
  · rw [if_neg h1]
    by_cases h2 : isRooted p.data = true
    · rw [if_pos h2]; simp
    · rw [if_neg h2]
      by_cases h3 : joinSlash (cleanElems (isRooted p.data) p.data) = []
      · rw [if_pos h3]; decide
      · rw [if_neg h3]; exact h3

theorem Join_of_ne_nil (l : List String) (h : joinNonEmpty l ≠ []) :
    Join l = Clean (String.mk (joinNonEmpty l)) := by
  simp [Join, h]

/-- The cleaning steps leave the same kept elements on a cleaned path as on the
path it was cleaned from. -/
theorem foldl_cleanStep_Clean (p : String) (hp : p.data ≠ []) :
    (splitSlash (Clean p).data).foldl (cleanStep (isRooted p.data)) [] =
      (splitSlash p.data).foldl (cleanStep (isRooted p.data)) [] := by
  have hkept := foldl_cleanStep_kept (isRooted p.data) (splitSlash p.data) [] (by simp)
    (no_slash_of_mem_splitSlash p.data)
  have hshape := foldl_cleanStep_shape (isRooted p.data) (splitSlash p.data) [] (by simp)
    (by simp)
  have hself := foldl_cleanStep_kept_self (isRooted p.data) _ hkept hshape.1 hshape.2
  have hrev : ∀ x ∈ ((splitSlash p.data).foldl (cleanStep (isRooted p.data)) []).reverse,
      '/' ∉ x := fun x hx => (hkept x (List.mem_reverse.mp hx)).2.2
  unfold Clean
  rw [if_neg hp]
  unfold cleanElems
  generalize (splitSlash p.data).foldl (cleanStep (isRooted p.data)) [] = K at *
  by_cases hK : K = []
  · subst hK
    cases isRooted p.data <;> simp [joinSlash, splitSlash, cleanStep]
  · have hne : K.reverse ≠ [] := by simpa using hK
    have hj : joinSlash K.reverse ≠ [] := by
      cases hc : K.reverse with
      | nil => exact absurd hc hne
      | cons e es =>
        have he : e ≠ [] := (hkept e (List.mem_reverse.mp (by rw [hc]; simp))).1
        cases es with
        | nil => simpa [joinSlash] using he
        | cons x xs => simp [joinSlash, he]
    cases hr : isRooted p.data with
    | true =>
      rw [hr] at hself
      simp only [if_true]
      rw [splitSlash, if_pos rfl, splitSlash_joinSlash _ hne hrev, List.foldl_cons]
      simpa [cleanStep] using hself
    | false =>
      rw [hr] at hself
      simp only [Bool.false_eq_true, if_false, if_neg hj]
      rw [splitSlash_joinSlash _ hne hrev]
      exact hself

theorem Clean_eq_of (p q : String) (h1 : (p.data = []) ↔ (q.data = []))
    (h2 : isRooted p.data = isRooted q.data)
    (h3 : cleanElems (isRooted p.data) p.data = cleanElems (isRooted q.data) q.data) :
    Clean p = Clean q := by
  unfold Clean
  rw [h3, h2]
  by_cases hp : p.data = []
  · rw [if_pos hp, if_pos (h1.mp hp)]
  · rw [if_neg hp, if_neg (fun h => hp (h1.mpr h))]

theorem isRooted_append_of_ne_nil (a b : List Char) (ha : a ≠ []) :
    isRooted (a ++ b) = isRooted a := by
  cases a with
  | nil => exact absurd rfl ha
  | cons c cs => simp [isRooted]

/-- Cleaning is idempotent. -/
theorem Clean_Clean (p : String) (hp : p.data ≠ []) : Clean (Clean p) = Clean p := by
  apply Clean_eq_of
  · simp [Clean_data_ne_nil, hp]
  · exact isRooted_Clean p hp
  · rw [isRooted_Clean p hp]
    unfold cleanElems
    rw [foldl_cleanStep_Clean p hp]

/-- Cleaning a prefix first does not change the cleaned whole. -/
theorem Clean_append_Clean (p : String) (c : List Char) (hp : p.data ≠ []) :
    Clean (String.mk ((Clean p).data ++ '/' :: c)) = Clean (String.mk (p.data ++ '/' :: c)) := by
  have hr : isRooted ((Clean p).data ++ '/' :: c) = isRooted (p.data ++ '/' :: c) := by
    rw [isRooted_append_of_ne_nil _ _ (Clean_data_ne_nil p), isRooted_append_of_ne_nil _ _ hp,
      isRooted_Clean p hp]
  apply Clean_eq_of
  · simp
  · exact hr
  · simp only
    rw [hr, isRooted_append_of_ne_nil _ _ hp]
    unfold cleanElems
    rw [splitSlash_append, splitSlash_append, List.foldl_append, List.foldl_append,
      foldl_cleanStep_Clean p hp]

/-- Joining in two steps gives the same path as joining at once. -/
theorem Join_Join (a b c : String) : Join [Join [a, b], c] = Join [a, b, c] := by
  by_cases hx : joinNonEmpty [a, b] = []
  · have hab : a.data = [] ∧ b.data = [] := by
      by_cases ha : a.data = [] <;> by_cases hb : b.data = [] <;>
        simp_all [joinNonEmpty]
    by_cases hc : c.data = [] <;> simp [Join, joinNonEmpty, hab.1, hab.2, hc]
  · have hy : Join [a, b] = Clean (String.mk (joinNonEmpty [a, b])) := Join_of_ne_nil _ hx
    have hyd : (Join [a, b]).data ≠ [] := by rw [hy]; exact Clean_data_ne_nil _
    have h3 : joinNonEmpty [a, b, c] =
        if c.data = [] then joinNonEmpty [a, b] else joinNonEmpty [a, b] ++ '/' :: c.data := by
      by_cases ha : a.data = [] <;> by_cases hb : b.data = [] <;> by_cases hc : c.data = [] <;>
        simp_all [joinNonEmpty]
    by_cases hc : c.data = []
    · have h2 : joinNonEmpty [Join [a, b], c] = (Join [a, b]).data := by
        simp [joinNonEmpty, hyd, hc]
      rw [if_pos hc] at h3
      rw [Join_of_ne_nil [Join [a, b], c] (by rw [h2]; exact hyd),
        Join_of_ne_nil [a, b, c] (by rw [h3]; exact hx), h2, h3, hy]
      exact Clean_Clean _ (by simpa using hx)
    · have h2 : joinNonEmpty [Join [a, b], c] = (Join [a, b]).data ++ '/' :: c.data := by
        simp [joinNonEmpty, hyd, hc]
      rw [if_neg hc] at h3
      rw [Join_of_ne_nil [Join [a, b], c] (by rw [h2]; simp),
        Join_of_ne_nil [a, b, c] (by rw [h3]; simp), h2, h3, hy]
      exact Clean_append_Clean _ _ (by simpa using hx)

end GoPath

namespace Clonador

open GoJson GoPath

/-! ## Decoding into a `Subgroup` -/

theorem keyMatches_unique {k a b : String} (ha : keyMatches k a = true)
    (hb : keyMatches k b = true) : a = b := by
  simp only [keyMatches, beq_iff_eq] at ha hb
  cases a; cases b
  simp_all

theorem storeInt_err (v : JSON) (a b : Int) : (storeInt v a).2 = (storeInt v b).2 := by
  cases v <;> simp [storeInt]
  split <;> rfl

theorem storeString_err (v : JSON) (a b : String) :
    (storeString v a).2 = (storeString v b).2 := by
  cases v <;> simp [storeString]

theorem storeInt_err_eq (v : JSON) (a : Int) : (storeInt v a).2 = !isIntValue v := by
  cases v <;> simp [storeInt, isIntValue]
  split <;> simp [*]

theorem storeString_err_eq (v : JSON) (a : String) : (storeString v a).2 = !isStringValue v := by
  cases v <;> simp [storeString, isStringValue]

theorem storeMember_err (s : Subgroup) (m : String × JSON) :
    (s.storeMember m).2 = !Subgroup.memberFits m := by
  unfold Subgroup.storeMember Subgroup.memberFits
  by_cases h1 : keyMatches m.1 "id" = true
  · have h2 : keyMatches m.1 "path" = false := by
      by_contra h
      have := keyMatches_unique h1 (by simpa using h)
      exact absurd this (by decide)
    have h3 : keyMatches m.1 "full_path" = false := by
      by_contra h
      have := keyMatches_unique h1 (by simpa using h)
      exact absurd this (by decide)
    simp [h1, h2, h3, storeInt_err_eq]
  · by_cases h2 : keyMatches m.1 "path" = true
    · have h3 : keyMatches m.1 "full_path" = false := by
        by_contra h
        have := keyMatches_unique h2 (by simpa using h)
        exact absurd this (by decide)
      simp [h1, h2, h3, storeString_err_eq]
    · by_cases h3 : keyMatches m.1 "full_path" = true
      · simp [h1, h2, h3, storeString_err_eq]
      · simp [h1, h2, h3]

theorem storeMembers_err (ms : List (String × JSON)) (acc : Subgroup × Bool) :
    (Subgroup.storeMembers ms acc).2 = (acc.2 || !ms.all Subgroup.memberFits) := by
  induction ms generalizing acc with
  | nil => simp [Subgroup.storeMembers]
  | cons m ms ih =>
    rw [Subgroup.storeMembers, ih]
    simp only [storeMember_err, List.all_cons]
    cases acc.2 <;> cases Subgroup.memberFits m <;> simp

theorem decodeSubgroup_err (v : JSON) (s : Subgroup) :
    (decodeSubgroup v s).2 = !fitsSubgroup v := by
  cases v <;> simp [decodeSubgroup, fitsSubgroup, storeMembers_err]
theorem keyMatches_excl {k a b : String} (hne : a ≠ b) (ha : keyMatches k a = true) :
    keyMatches k b = false := by
  by_contra h
  exact hne (keyMatches_unique ha (by simpa using h))

theorem storeMember_ID_of_not (s : Subgroup) (m : String × JSON)
    (h : keyMatches m.1 "id" = false) : (s.storeMember m).1.ID = s.ID := by
  unfold Subgroup.storeMember
  split_ifs <;> simp_all

theorem storeMember_Path_of_not (s : Subgroup) (m : String × JSON)
    (h : keyMatches m.1 "path" = false) : (s.storeMember m).1.Path = s.Path := by
  unfold Subgroup.storeMember
  split_ifs <;> simp_all

theorem storeMember_FullPath_of_not (s : Subgroup) (m : String × JSON)
    (h : keyMatches m.1 "full_path" = false) : (s.storeMember m).1.FullPath = s.FullPath := by
  unfold Subgroup.storeMember
  split_ifs <;> simp_all

theorem storeMember_ID_of (s : Subgroup) (m : String × JSON)
    (h : keyMatches m.1 "id" = true) : (s.storeMember m).1.ID = (storeInt m.2 s.ID).1 := by
  unfold Subgroup.storeMember
  simp [h]

theorem storeMember_Path_of (s : Subgroup) (m : String × JSON)
    (h : keyMatches m.1 "path" = true) :
    (s.storeMember m).1.Path = (storeString m.2 s.Path).1 := by
  have h1 : keyMatches m.1 "id" = false := keyMatches_excl (by decide) h
  unfold Subgroup.storeMember
  simp [h, h1]

theorem storeMember_FullPath_of (s : Subgroup) (m : String × JSON)
    (h : keyMatches m.1 "full_path" = true) :
    (s.storeMember m).1.FullPath = (storeString m.2 s.FullPath).1 := by
  have h1 : keyMatches m.1 "id" = false := keyMatches_excl (by decide) h
  have h2 : keyMatches m.1 "path" = false := keyMatches_excl (by decide) h
  unfold Subgroup.storeMember
  simp [h, h1, h2]

/-- The `ID` a decoded object ends with is decided by the members named `id`
alone, the last one winning. -/
theorem storeMembers_ID (ms : List (String × JSON)) (acc : Subgroup × Bool) :
    (Subgroup.storeMembers ms acc).1.ID =
      ((ms.filter (fun m => keyMatches m.1 "id")).map Prod.snd).foldl
        (fun cur v => (storeInt v cur).1) acc.1.ID := by
  induction ms generalizing acc with
  | nil => simp [Subgroup.storeMembers]
  | cons m ms ih =>
    rw [Subgroup.storeMembers, ih]
    by_cases h : keyMatches m.1 "id" = true
    · simp [List.filter_cons, h, storeMember_ID_of]
    · have h' : keyMatches m.1 "id" = false := by simpa using h
      simp [List.filter_cons, h', storeMember_ID_of_not]

theorem storeMembers_Path (ms : List (String × JSON)) (acc : Subgroup × Bool) :
    (Subgroup.storeMembers ms acc).1.Path =
      ((ms.filter (fun m => keyMatches m.1 "path")).map Prod.snd).foldl
        (fun cur v => (storeString v cur).1) acc.1.Path := by
  induction ms generalizing acc with
  | nil => simp [Subgroup.storeMembers]
  | cons m ms ih =>
    rw [Subgroup.storeMembers, ih]
    by_cases h : keyMatches m.1 "path" = true
    · simp [List.filter_cons, h, storeMember_Path_of]
    · have h' : keyMatches m.1 "path" = false := by simpa using h
      simp [List.filter_cons, h', storeMember_Path_of_not]

theorem storeMembers_FullPath (ms : List (String × JSON)) (acc : Subgroup × Bool) :
    (Subgroup.storeMembers ms acc).1.FullPath =
      ((ms.filter (fun m => keyMatches m.1 "full_path")).map Prod.snd).foldl
        (fun cur v => (storeString v cur).1) acc.1.FullPath := by
  induction ms generalizing acc with
  | nil => simp [Subgroup.storeMembers]
  | cons m ms ih =>
    rw [Subgroup.storeMembers, ih]
    by_cases h : keyMatches m.1 "full_path" = true
    · simp [List.filter_cons, h, storeMember_FullPath_of]
    · have h' : keyMatches m.1 "full_path" = false := by simpa using h
      simp [List.filter_cons, h', storeMember_FullPath_of_not]

/-- A member named after a field occurs among the values selected for that field. -/
theorem mem_selected {ms : List (String × JSON)} {name : String} {m : String × JSON}
    (hm : m ∈ ms) (hk : keyMatches m.1 name = true) :
    m.2 ∈ (ms.filter (fun x => keyMatches x.1 name)).map Prod.snd :=
  List.mem_map.mpr ⟨m, List.mem_filter.mpr ⟨hm, hk⟩, rfl⟩

/-- An object that encodes `s` decodes into `s`, from any starting struct and
without a mismatch. -/
theorem decodeSubgroup_of_encodes {v : JSON} {s : Subgroup} (h : IsSubgroupObject v s)
    (s0 : Subgroup) : decodeSubgroup v s0 = (s, false) := by
  obtain ⟨ms, lit, rfl, hlit, hid, hpath, hfull⟩ := h
  have hfit : ms.all Subgroup.memberFits = true := by
    rw [List.all_eq_true]
    intro m hm
    unfold Subgroup.memberFits
    have a1 : (!keyMatches m.1 "id" || isIntValue m.2) = true := by
      by_cases hk : keyMatches m.1 "id" = true
      · have := mem_selected hm hk
        rw [hid] at this
        simp only [List.mem_singleton] at this
        simp [this, isIntValue, hlit]
      · simp [hk]
    have a2 : (!keyMatches m.1 "path" || isStringValue m.2) = true := by
      by_cases hk : keyMatches m.1 "path" = true
      · have := mem_selected hm hk
        rw [hpath] at this
        simp only [List.mem_singleton] at this
        simp [this, isStringValue]
      · simp [hk]
    have a3 : (!keyMatches m.1 "full_path" || isStringValue m.2) = true := by
      by_cases hk : keyMatches m.1 "full_path" = true
      · have := mem_selected hm hk
        rw [hfull] at this
        simp only [List.mem_singleton] at this
        simp [this, isStringValue]
      · simp [hk]
    simp [a1, a2, a3]
  have e : (decodeSubgroup (JSON.obj ms) s0).2 = false := by
    rw [decodeSubgroup_err]; simp [fitsSubgroup, hfit]
  have i : (decodeSubgroup (JSON.obj ms) s0).1.ID = s.ID := by
    simp [decodeSubgroup, storeMembers_ID, hid, storeInt, hlit]
  have p : (decodeSubgroup (JSON.obj ms) s0).1.Path = s.Path := by
    simp [decodeSubgroup, storeMembers_Path, hpath, storeString]
  have f : (decodeSubgroup (JSON.obj ms) s0).1.FullPath = s.FullPath := by
    simp [decodeSubgroup, storeMembers_FullPath, hfull, storeString]
  generalize decodeSubgroup (JSON.obj ms) s0 = r at e i p f
  obtain ⟨⟨a, b, c⟩, d⟩ := r
  cases s
  simp_all

/-! ## `request` and `fetchSubGroups` -/

theorem request_of_200 {env : Env} {g : Globals} {url : String} {resp : Response}
    (hhttp : env.http g.accessToken url = HttpResult.response resp) (hst : resp.status = 200) :
    request env g url = ([Event.request url (some 200)], Except.ok resp) := by
  simp [request, hhttp, hst]

theorem map_decode_of_encodes {vs : List JSON} {ss : List Subgroup}
    (h : List.Forall₂ IsSubgroupObject vs ss) :
    vs.map (fun v => (decodeSubgroup v Subgroup.zero).1) = ss ∧
      vs.any (fun v => (decodeSubgroup v Subgroup.zero).2) = false := by
  induction h with
  | nil => simp
  | cons hx _ ih =>
    simp [decodeSubgroup_of_encodes hx, ih.1]
    simpa using ih.2

theorem any_not_eq_not_all {α : Type} (p : α → Bool) (l : List α) :
    (l.any fun v => !p v) = !l.all p := by
  induction l with
  | nil => simp
  | cons x xs ih => simp [ih, Bool.not_and]

theorem unmarshalSubgroups_err (body : String) :
    (unmarshalSubgroups body).2 = !bodyIsSubgroupSeq body := by
  unfold unmarshalSubgroups bodyIsSubgroupSeq
  cases h : parseJSON body with
  | none => simp
  | some v =>
    cases v <;> simp [fitsSubgroupSeq, decodeSubgroup_err, any_not_eq_not_all]

theorem unmarshalSubgroup_err (body : String) :
    (unmarshalSubgroup body).2 = !bodyIsSubgroupObject body := by
  unfold unmarshalSubgroup bodyIsSubgroupObject
  cases h : parseJSON body with
  | none => simp
  | some v => simp [decodeSubgroup_err]

/-- When the first attempt fails and the second succeeds, the failed first
attempt has left the slice empty. -/
theorem unmarshalSubgroups_nil_of_object {body : String}
    (hseq : bodyIsSubgroupSeq body = false) (hobj : bodyIsSubgroupObject body = true) :
    (unmarshalSubgroups body).1 = [] := by
  unfold unmarshalSubgroups
  unfold bodyIsSubgroupSeq at hseq
  unfold bodyIsSubgroupObject at hobj
  cases h : parseJSON body with
  | none => simp
  | some v =>
    rw [h] at hseq hobj
    cases v <;> simp_all [fitsSubgroup, fitsSubgroupSeq]

/-! ## Traces of the steps -/

theorem andThen_ok {α β : Type} {r : Res α} {k : α → FS → Res β} {b : β}
    (h : (r.andThen k).out = Outcome.ok b) :
    ∃ a, r.out = Outcome.ok a ∧ (k a r.fs).out = Outcome.ok b ∧
      (r.andThen k).events = r.events ++ (k a r.fs).events := by
  unfold Res.andThen at h ⊢
  cases hr : r.out with
  | ok a => rw [hr] at h; exact ⟨a, rfl, by simpa using h, by simp⟩
  | fatal f => rw [hr] at h; simp at h
  | indexPanic => rw [hr] at h; simp at h

theorem fetchSubGroups_congr (env : Env) (g : Globals) (url : String) (fs fs' : FS) :
    (fetchSubGroups env g url fs).out = (fetchSubGroups env g url fs').out ∧
    (fetchSubGroups env g url fs).events = (fetchSubGroups env g url fs').events ∧
    (fetchSubGroups env g url fs).fs = fs := by
  unfold fetchSubGroups
  split
  · simp
  · split_ifs <;> simp

theorem request_ok_events {env : Env} {g : Globals} {url : String} {evs : List Event}
    {resp : Response} (h : request env g url = (evs, Except.ok resp)) :
    evs = [Event.request url (some 200)] := by
  unfold request at h
  split at h
  · simp at h
  · simp at h
  · split_ifs at h with hs
    · simp at h
    · simp only [ne_eq, Decidable.not_not] at hs
      simp only [Prod.mk.injEq, Except.ok.injEq] at h
      rw [← h.1, hs]

theorem fetchSubGroups_ok {env : Env} {g : Globals} {url : String} {fs : FS}
    {found : List Subgroup} (h : (fetchSubGroups env g url fs).out = Outcome.ok found) :
    (fetchSubGroups env g url fs).events = [Event.request url (some 200)] ∧
    (fetchSubGroups env g url fs).fs = fs ∧ listedGroups env g url = found := by
  refine ⟨?_, (fetchSubGroups_congr env g url fs fs).2.2, ?_⟩
  · unfold fetchSubGroups at h ⊢
    split at h
    · simp at h
    · rename_i evs resp hreq
      have := request_ok_events hreq
      split_ifs <;> simp [this]
  · unfold listedGroups
    rw [(fetchSubGroups_congr env g url [] fs).1, h]

theorem cloneGitProject_calls (env : Env) (g : Globals) (u fp pp : String) (fs : FS) :
    cloneCalls (cloneGitProject env g u fp pp fs).events = [(u, fp, pp)] ∧
    requestUrls (cloneGitProject env g u fp pp fs).events = [] := by
  unfold cloneGitProject
  by_cases h : Join [Join [g.baseDir, fp], pp] ∈ fs <;> simp [h, cloneCalls, requestUrls]

theorem cloneCalls_append (a b : List Event) : cloneCalls (a ++ b) = cloneCalls a ++ cloneCalls b :=
  List.filterMap_append _ _ _

theorem requestUrls_append (a b : List Event) :
    requestUrls (a ++ b) = requestUrls a ++ requestUrls b :=
  List.filterMap_append _ _ _

theorem cloneProjects_ok (env : Env) (g : Globals) (path : String) (ps : List Project) (fs : FS)
    (h : (cloneProjects env g path ps fs).out = Outcome.ok ()) :
    cloneCalls (cloneProjects env g path ps fs).events =
      ps.map (fun p => (p.HttpsUrl, path, p.Path)) ∧
    requestUrls (cloneProjects env g path ps fs).events = [] := by
  induction ps generalizing fs with
  | nil => simp [cloneProjects, cloneCalls, requestUrls]
  | cons p ps ih =>
    rw [cloneProjects] at h ⊢
    obtain ⟨err, h1, h2, h3⟩ := andThen_ok h
    rw [h3, cloneCalls_append, requestUrls_append]
    have hc := cloneGitProject_calls env g p.HttpsUrl path p.Path fs
    cases err with
    | some e => simp at h2
    | none =>
      simp only at h2 ⊢
      have := ih _ h2
      simp [hc.1, hc.2, this.1, this.2]

theorem listProjectsAndClone_ok (env : Env) (g : Globals) (grp : Subgroup) (fs : FS)
    (h : (listProjectsAndClone env g (Itoa grp.ID) grp.FullPath fs).out = Outcome.ok ()) :
    cloneCalls (listProjectsAndClone env g (Itoa grp.ID) grp.FullPath fs).events =
      groupCalls env g grp ∧
    requestUrls (listProjectsAndClone env g (Itoa grp.ID) grp.FullPath fs).events =
      [projectsUrl g (Itoa grp.ID)] := by
  unfold listProjectsAndClone at h ⊢
  unfold groupCalls listedProjects
  split at h
  · simp at h
  · rename_i evs resp hreq
    have hev := request_ok_events hreq
    rw [hreq]
    simp only
    obtain ⟨ps, h1, h2, h3⟩ := andThen_ok h
    simp only [Outcome.ok.injEq] at h1
    subst h1
    obtain ⟨u, h4, h5, h6⟩ := andThen_ok h2
    rw [h3, h6]
    have hcp := cloneProjects_ok env g grp.FullPath _ fs h4
    simp only [cloneCalls_append, requestUrls_append, hcp.1, hcp.2, hev]
    constructor
    · split_ifs <;> simp [cloneCalls]
    · split_ifs <;> simp [requestUrls]

/-! ## Refusals end the run -/

theorem andThen_cases {α β : Type} (r : Res α) (k : α → FS → Res β) :
    (∃ a, r.out = Outcome.ok a ∧ (r.andThen k).events = r.events ++ (k a r.fs).events ∧
      (r.andThen k).out = (k a r.fs).out) ∨
    ((r.andThen k).events = r.events ∧
      ((∃ f, r.out = Outcome.fatal f ∧ (r.andThen k).out = Outcome.fatal f) ∨
        (r.out = Outcome.indexPanic ∧ (r.andThen k).out = Outcome.indexPanic))) := by
  unfold Res.andThen
  cases hr : r.out with
  | ok a => left; exact ⟨a, rfl, by simp, by simp⟩
  | fatal f => right; exact ⟨by simp, Or.inl ⟨f, rfl, by simp⟩⟩
  | indexPanic => right; exact ⟨by simp, Or.inr ⟨rfl, by simp⟩⟩

theorem andThen_stops {α β : Type} {r : Res α} {k : α → FS → Res β}
    (h1 : StopsAtRefusal r) (h2 : ∀ a fs, StopsAtRefusal (k a fs)) :
    StopsAtRefusal (r.andThen k) := by
  rcases andThen_cases r k with ⟨a, ha, hev, hout⟩ | ⟨hev, hout⟩
  · have hclean : ∀ ev ∈ r.events, ev.isRefusal = false := by
      rcases h1 with h | ⟨_, _, f, _, _, hf⟩
      · exact h
      · rw [ha] at hf; cases hf
    rcases h2 a r.fs with h | ⟨before, ev, f, he, hb, hf⟩
    · left
      intro ev hmem
      rw [hev] at hmem
      rcases List.mem_append.mp hmem with hm | hm
      · exact hclean ev hm
      · exact h ev hm
    · right
      refine ⟨r.events ++ before, ev, f, ?_, ?_, ?_⟩
      · rw [hev, he, List.append_assoc]
      · intro x hx
        rcases List.mem_append.mp hx with hm | hm
        · exact hclean x hm
        · exact hb x hm
      · rw [hout, hf]
  · rcases h1 with h | ⟨before, ev, f, he, hb, hf⟩
    · left; rw [hev]; exact h
    · right
      refine ⟨before, ev, f, by rw [hev, he], hb, ?_⟩
      rcases hout with ⟨f', hf', ho⟩ | ⟨hp, _⟩
      · rw [hf] at hf'; cases hf'; exact ho
      · rw [hf] at hp; cases hp

theorem request_events (env : Env) (g : Globals) (url : String) :
    (∃ e, request env g url = ([], Except.error e)) ∨
    (∃ e, request env g url = ([Event.request url none], Except.error e)) ∨
    (∃ resp, env.http g.accessToken url = HttpResult.response resp ∧ resp.status ≠ 200 ∧
      request env g url = ([Event.request url (some resp.status)],
        Except.error (RequestError.unexpectedStatus resp.status))) ∨
    (∃ resp, env.http g.accessToken url = HttpResult.response resp ∧ resp.status = 200 ∧
      request env g url = ([Event.request url (some 200)], Except.ok resp)) := by
  unfold request
  cases h : env.http g.accessToken url with
  | invalidRequest => left; exact ⟨_, rfl⟩
  | transportError => right; left; exact ⟨_, rfl⟩
  | response resp =>
    by_cases hs : resp.status = 200
    · right; right; right
      exact ⟨resp, rfl, hs, by simp [hs]⟩
    · right; right; left
      exact ⟨resp, rfl, hs, by simp [hs]⟩

theorem stops_of_single_fatal {α : Type} (evs : List Event) (fs : FS) (f : Fatal)
    (h : evs = [] ∨ ∃ ev, evs = [ev]) : StopsAtRefusal (Res.mk evs fs (Outcome.fatal f : Outcome α)) := by
  rcases h with rfl | ⟨ev, rfl⟩
  · left; simp
  · right; exact ⟨[], ev, f, by simp, by simp, rfl⟩

theorem fetchSubGroups_stops (env : Env) (g : Globals) (url : String) (fs : FS) :
    StopsAtRefusal (fetchSubGroups env g url fs) := by
  unfold fetchSubGroups
  rcases request_events env g url with ⟨e, h⟩ | ⟨e, h⟩ | ⟨resp, _, _, h⟩ | ⟨resp, _, _, h⟩
  · rw [h]; exact stops_of_single_fatal _ _ _ (Or.inl rfl)
  · rw [h]; exact stops_of_single_fatal _ _ _ (Or.inr ⟨_, rfl⟩)
  · rw [h]; exact stops_of_single_fatal _ _ _ (Or.inr ⟨_, rfl⟩)
  · rw [h]
    simp only
    split_ifs <;> first
      | exact stops_of_single_fatal _ _ _ (Or.inr ⟨_, rfl⟩)
      | (left; simp [Event.isRefusal])

theorem cloneGitProject_stops (env : Env) (g : Globals) (u fp pp : String) (fs : FS) :
    StopsAtRefusal (cloneGitProject env g u fp pp fs) := by
  left
  unfold cloneGitProject
  by_cases h : Join [Join [g.baseDir, fp], pp] ∈ fs <;> simp [h, Event.isRefusal]

theorem stops_of_no_events {α : Type} (fs : FS) (o : Outcome α) :
    StopsAtRefusal (Res.mk [] fs o) := by
  left; simp

theorem cloneProjects_stops (env : Env) (g : Globals) (path : String) (ps : List Project)
    (fs : FS) : StopsAtRefusal (cloneProjects env g path ps fs) := by
  induction ps generalizing fs with
  | nil => exact stops_of_no_events _ _
  | cons p ps ih =>
    rw [cloneProjects]
    apply andThen_stops (cloneGitProject_stops _ _ _ _ _ _)
    intro err fs1
    cases err with
    | some e => exact stops_of_no_events _ _
    | none => exact ih fs1

theorem listProjectsAndClone_stops (env : Env) (g : Globals) (gid path : String) (fs : FS) :
    StopsAtRefusal (listProjectsAndClone env g gid path fs) := by
  unfold listProjectsAndClone
  rcases request_events env g (projectsUrl g gid) with
    ⟨e, h⟩ | ⟨e, h⟩ | ⟨resp, _, _, h⟩ | ⟨resp, _, _, h⟩
  · rw [h]; exact stops_of_single_fatal _ _ _ (Or.inl rfl)
  · rw [h]; exact stops_of_single_fatal _ _ _ (Or.inr ⟨_, rfl⟩)
  · rw [h]; exact stops_of_single_fatal _ _ _ (Or.inr ⟨_, rfl⟩)
  · rw [h]
    simp only
    apply andThen_stops
    · left; simp [Event.isRefusal]
    · intro ps fs0
      apply andThen_stops (cloneProjects_stops _ _ _ _ _)
      intro _ fs1
      split_ifs <;> exact stops_of_no_events _ _

theorem childLoop_stops (env : Env) (g : Globals) (children : List Subgroup) (fs : FS) :
    StopsAtRefusal (childLoop env g children fs) := by
  induction children generalizing fs with
  | nil => exact stops_of_no_events _ _
  | cons c cs ih =>
    rw [childLoop]
    exact andThen_stops (listProjectsAndClone_stops _ _ _ _ _) (fun _ fs1 => ih fs1)

theorem subgroupLoop_stops (env : Env) (g : Globals) (subs : List Subgroup) (fs : FS) :
    StopsAtRefusal (subgroupLoop env g subs fs) := by
  induction subs generalizing fs with
  | nil => exact stops_of_no_events _ _
  | cons s ss ih =>
    rw [subgroupLoop]
    refine andThen_stops (listProjectsAndClone_stops _ _ _ _ _) (fun _ fs1 => ?_)
    refine andThen_stops (fetchSubGroups_stops _ _ _ _) (fun children fs2 => ?_)
    exact andThen_stops (childLoop_stops _ _ _ _) (fun _ fs3 => ih fs3)

theorem main_stops (env : Env) (flags : Globals) (fs : FS) :
    StopsAtRefusal (main env flags fs) := by
  unfold main
  split_ifs
  · exact stops_of_no_events _ _
  · simp only
    refine andThen_stops (fetchSubGroups_stops _ _ _ _) (fun found fs1 => ?_)
    cases found with
    | nil => exact stops_of_no_events _ _
    | cons root others =>
      simp only
      refine andThen_stops (listProjectsAndClone_stops _ _ _ _ _) (fun _ fs2 => ?_)
      exact andThen_stops (fetchSubGroups_stops _ _ _ _) (fun subs fs3 => subgroupLoop_stops _ _ _ _)

theorem last_of_stops {α : Type} {r : Res α} (h : StopsAtRefusal r)
    {before after : List Event} {ev : Event} (hsplit : r.events = before ++ ev :: after)
    (hev : ev.isRefusal = true) : after = [] ∧ ∃ f, r.out = Outcome.fatal f := by
  rcases h with h | ⟨pre, last, f, he, hpre, hf⟩
  · have := h ev (by rw [hsplit]; simp)
    rw [hev] at this; cases this
  · rw [hsplit] at he
    rcases List.append_eq_append_iff.mp he with ⟨a', ha, hb⟩ | ⟨c', _, hd⟩
    · cases a' with
      | nil =>
        simp only [List.nil_append, List.cons.injEq] at hb
        exact ⟨hb.2, f, hf⟩
      | cons x xs =>
        simp only [List.cons_append, List.cons.injEq] at hb
        have hmem : ev ∈ pre := by rw [ha, hb.1]; simp
        have := hpre ev hmem
        rw [hev] at this; cases this
    · have hlen : [last].length = (c' ++ ev :: after).length := congrArg List.length hd
      simp only [List.length_append, List.length_cons, List.length_nil] at hlen
      have : after.length = 0 := by omega
      exact ⟨List.length_eq_zero.mp this, f, hf⟩

/-! ## The URLs of a run -/

theorem mem_requestUrls_andThen {α β : Type} {r : Res α} {k : α → FS → Res β} {u : String}
    (h : u ∈ requestUrls (r.andThen k).events) :
    u ∈ requestUrls r.events ∨ ∃ a fs, u ∈ requestUrls (k a fs).events := by
  rcases andThen_cases r k with ⟨a, _, hev, _⟩ | ⟨hev, _⟩
  · rw [hev, requestUrls_append] at h
    rcases List.mem_append.mp h with h | h
    · exact Or.inl h
    · exact Or.inr ⟨a, r.fs, h⟩
  · rw [hev] at h
    exact Or.inl h

theorem mem_requestUrls_fetchSubGroups {env : Env} {g : Globals} {url : String} {fs : FS}
    {u : String} (h : u ∈ requestUrls (fetchSubGroups env g url fs).events) : u = url := by
  unfold fetchSubGroups at h
  rcases request_events env g url with ⟨e, hr⟩ | ⟨e, hr⟩ | ⟨resp, _, _, hr⟩ | ⟨resp, _, _, hr⟩ <;>
    rw [hr] at h
  · simp [requestUrls] at h
  · simpa [requestUrls] using h
  · simpa [requestUrls] using h
  · simp only at h
    split_ifs at h <;> simpa [requestUrls] using h

theorem requestUrls_cloneProjects (env : Env) (g : Globals) (path : String) (ps : List Project)
    (fs : FS) : requestUrls (cloneProjects env g path ps fs).events = [] := by
  induction ps generalizing fs with
  | nil => simp [cloneProjects, requestUrls]
  | cons p ps ih =>
    rw [cloneProjects]
    rcases andThen_cases (cloneGitProject env g p.HttpsUrl path p.Path fs)
      (fun err fs1 =>
        match err with
        | some _ => ⟨[], fs1, Outcome.fatal Fatal.errorOccurred⟩
        | none => cloneProjects env g path ps fs1) with ⟨a, _, hev, _⟩ | ⟨hev, _⟩
    · rw [hev, requestUrls_append, (cloneGitProject_calls env g _ _ _ fs).2]
      cases a with
      | some e => simp [requestUrls]
      | none => simpa using ih _
    · rw [hev, (cloneGitProject_calls env g _ _ _ fs).2]

theorem mem_requestUrls_listProjectsAndClone {env : Env} {g : Globals} {gid path : String}
    {fs : FS} {u : String}
    (h : u ∈ requestUrls (listProjectsAndClone env g gid path fs).events) :
    u = projectsUrl g gid := by
  unfold listProjectsAndClone at h
  rcases request_events env g (projectsUrl g gid) with
    ⟨e, hr⟩ | ⟨e, hr⟩ | ⟨resp, _, _, hr⟩ | ⟨resp, _, _, hr⟩ <;> rw [hr] at h
  · simp [requestUrls] at h
  · simpa [requestUrls] using h
  · simpa [requestUrls] using h
  · simp only at h
    rcases mem_requestUrls_andThen h with h1 | ⟨ps, fs0, h1⟩
    · simpa [requestUrls] using h1
    · rcases mem_requestUrls_andThen h1 with h2 | ⟨_, fs1, h2⟩
      · rw [requestUrls_cloneProjects] at h2
        cases h2
      · split_ifs at h2 <;> simp [requestUrls] at h2

theorem mem_requestUrls_childLoop {env : Env} {g : Globals} {children : List Subgroup}
    {fs : FS} {u : String} (h : u ∈ requestUrls (childLoop env g children fs).events) :
    ∃ n : Int, u = projectsUrl g (Itoa n) := by
  induction children generalizing fs with
  | nil => simp [childLoop, requestUrls] at h
  | cons c cs ih =>
    rw [childLoop] at h
    rcases mem_requestUrls_andThen h with h1 | ⟨_, fs1, h1⟩
    · exact ⟨c.ID, mem_requestUrls_listProjectsAndClone h1⟩
    · exact ih h1

theorem mem_requestUrls_subgroupLoop {env : Env} {g : Globals} {subs : List Subgroup}
    {fs : FS} {u : String} (h : u ∈ requestUrls (subgroupLoop env g subs fs).events) :
    ∃ n : Int, u = projectsUrl g (Itoa n) ∨ u = getSubGroupdApiURL g (Itoa n) := by
  induction subs generalizing fs with
  | nil => simp [subgroupLoop, requestUrls] at h
  | cons s ss ih =>
    rw [subgroupLoop] at h
    rcases mem_requestUrls_andThen h with h1 | ⟨_, fs1, h1⟩
    · exact ⟨s.ID, Or.inl (mem_requestUrls_listProjectsAndClone h1)⟩
    · rcases mem_requestUrls_andThen h1 with h2 | ⟨children, fs2, h2⟩
      · exact ⟨s.ID, Or.inr (mem_requestUrls_fetchSubGroups h2)⟩
      · rcases mem_requestUrls_andThen h2 with h3 | ⟨_, fs3, h3⟩
        · obtain ⟨n, hn⟩ := mem_requestUrls_childLoop h3
          exact ⟨n, Or.inl hn⟩
        · exact ih h3

theorem mem_requestUrls_main {env : Env} {flags : Globals} {fs : FS} {u : String}
    (h : u ∈ requestUrls (main env flags fs).events) :
    u = getGroupApiURL (withApiURL flags) flags.groupId ∨
      ∃ n : Int, u = projectsUrl (withApiURL flags) (Itoa n) ∨
        u = getSubGroupdApiURL (withApiURL flags) (Itoa n) := by
  unfold main at h
  split_ifs at h
  · simp [requestUrls] at h
  · simp only at h
    rcases mem_requestUrls_andThen h with h1 | ⟨found, fs1, h1⟩
    · exact Or.inl (mem_requestUrls_fetchSubGroups h1)
    · right
      cases found with
      | nil => simp [requestUrls] at h1
      | cons root others =>
        simp only at h1
        rcases mem_requestUrls_andThen h1 with h2 | ⟨_, fs2, h2⟩
        · exact ⟨root.ID, Or.inl (mem_requestUrls_listProjectsAndClone h2)⟩
        · rcases mem_requestUrls_andThen h2 with h3 | ⟨subs, fs3, h3⟩
          · exact ⟨root.ID, Or.inr (mem_requestUrls_fetchSubGroups h3)⟩
          · exact mem_requestUrls_subgroupLoop h3

/-! ## Runs in which everything succeeds -/

theorem fetchSubGroups_out_of_shape {env : Env} {g : Globals} {url : String} {resp : Response}
    (fs : FS)
    (hhttp : env.http g.accessToken url = HttpResult.response resp)
    (hst : resp.status = 200) (hread : resp.readFails = false) (hclose : resp.closeFails = false)
    (hshape : bodyIsSubgroupSeq resp.body = true ∨ bodyIsSubgroupObject resp.body = true) :
    ∃ found, (fetchSubGroups env g url fs).out = Outcome.ok found := by
  have hreq := request_of_200 hhttp hst
  by_cases h1 : bodyIsSubgroupSeq resp.body = true
  · exact ⟨(unmarshalSubgroups resp.body).1,
      by simp [fetchSubGroups, hreq, hread, hclose, unmarshalSubgroups_err, h1]⟩
  · have h2 : bodyIsSubgroupObject resp.body = true := by
      rcases hshape with h | h
      · exact absurd h h1
      · exact h
    have h1' : bodyIsSubgroupSeq resp.body = false := by simpa using h1
    exact ⟨(unmarshalSubgroups resp.body).1 ++ [(unmarshalSubgroup resp.body).1],
      by simp [fetchSubGroups, hreq, hread, hclose, unmarshalSubgroups_err,
        unmarshalSubgroup_err, h1', h2]⟩

theorem fetchSubGroups_succeeds {env : Env} {g : Globals} (h : AllSucceed env g) (url : String)
    (hurl : ∃ gid, url = getGroupApiURL g gid ∨ url = getSubGroupdApiURL g gid) (fs : FS) :
    ∃ found, (fetchSubGroups env g url fs).out = Outcome.ok found := by
  obtain ⟨resp, hhttp, hst, hread, hclose, hshape⟩ := h.1 url
  exact fetchSubGroups_out_of_shape fs hhttp hst hread hclose (hshape hurl)

theorem cloneProjects_succeeds {env : Env} {g : Globals} (h : AllSucceed env g) (path : String)
    (ps : List Project) (fs : FS) : (cloneProjects env g path ps fs).out = Outcome.ok () := by
  induction ps generalizing fs with
  | nil => rfl
  | cons p ps ih =>
    rw [cloneProjects]
    have hc : (cloneGitProject env g p.HttpsUrl path p.Path fs).out = Outcome.ok none := by
      unfold cloneGitProject
      by_cases hx : Join [Join [g.baseDir, path], p.Path] ∈ fs <;> simp [hx, h.2]
    unfold Res.andThen
    rw [hc]
    exact ih _

theorem listProjectsAndClone_succeeds {env : Env} {g : Globals} (h : AllSucceed env g)
    (gid path : String) (fs : FS) :
    (listProjectsAndClone env g gid path fs).out = Outcome.ok () := by
  obtain ⟨resp, hhttp, hst, _, hclose, _⟩ := h.1 (projectsUrl g gid)
  unfold listProjectsAndClone
  rw [request_of_200 hhttp hst]
  simp only [Res.andThen, cloneProjects_succeeds h, hclose]
  simp

theorem andThen_out_of_ok {α β : Type} {r : Res α} {k : α → FS → Res β} {a : α}
    (h : r.out = Outcome.ok a) : (r.andThen k).out = (k a r.fs).out := by
  unfold Res.andThen
  rw [h]

theorem childLoop_succeeds {env : Env} {g : Globals} (h : AllSucceed env g)
    (children : List Subgroup) (fs : FS) : (childLoop env g children fs).out = Outcome.ok () := by
  induction children generalizing fs with
  | nil => rfl
  | cons c cs ih =>
    rw [childLoop, andThen_out_of_ok (listProjectsAndClone_succeeds h _ _ _)]
    exact ih _

theorem subgroupLoop_succeeds {env : Env} {g : Globals} (h : AllSucceed env g)
    (subs : List Subgroup) (fs : FS) : (subgroupLoop env g subs fs).out = Outcome.ok () := by
  induction subs generalizing fs with
  | nil => rfl
  | cons s ss ih =>
    rw [subgroupLoop, andThen_out_of_ok (listProjectsAndClone_succeeds h _ _ _)]
    obtain ⟨children, hch⟩ := fetchSubGroups_succeeds h (getSubGroupdApiURL g (Itoa s.ID))
      ⟨_, Or.inr rfl⟩ (listProjectsAndClone env g (Itoa s.ID) s.FullPath fs).fs
    rw [andThen_out_of_ok hch, andThen_out_of_ok (childLoop_succeeds h _ _)]
    exact ih _

theorem main_succeeds {env : Env} {flags : Globals} (fs : FS)
    (hflags : flags.accessToken ≠ "" ∧ flags.baseDir ≠ "" ∧ flags.gitlabBaseURL ≠ "" ∧
      flags.groupId ≠ "")
    (h : AllSucceed env (withApiURL flags))
    (hroot : listedGroups env (withApiURL flags)
      (getGroupApiURL (withApiURL flags) flags.groupId) ≠ []) :
    (main env flags fs).out = Outcome.ok () := by
  unfold main
  rw [if_neg (by simp [hflags.1, hflags.2.1, hflags.2.2.1, hflags.2.2.2])]
  simp only
  obtain ⟨found, hf⟩ := fetchSubGroups_succeeds h
    (getGroupApiURL (withApiURL flags) (withApiURL flags).groupId) ⟨_, Or.inl rfl⟩ fs
  rw [andThen_out_of_ok hf]
  have hl := (fetchSubGroups_ok hf).2.2
  cases found with
  | nil => exact absurd hl hroot
  | cons root others =>
    simp only
    rw [andThen_out_of_ok (listProjectsAndClone_succeeds h _ _ _)]
    obtain ⟨subs, hs⟩ := fetchSubGroups_succeeds h
      (getSubGroupdApiURL (withApiURL flags) (Itoa root.ID)) ⟨_, Or.inr rfl⟩
      (listProjectsAndClone env (withApiURL flags) (Itoa root.ID) root.FullPath
        (fetchSubGroups env (withApiURL flags)
          (getGroupApiURL (withApiURL flags) (withApiURL flags).groupId) fs).fs).fs
    rw [andThen_out_of_ok hs]
    exact subgroupLoop_succeeds h _ _

theorem flatServer_allSucceed : AllSucceed (quietDisk flatServer) (withApiURL sampleFlags) := by
  refine ⟨fun url => ?_, fun _ _ _ => rfl⟩
  show ∃ resp, flatServer "token" url = HttpResult.response resp ∧ _
  unfold flatServer
  split_ifs
  · exact ⟨_, rfl, rfl, rfl, rfl, fun _ => Or.inl (by decide)⟩
  · exact ⟨_, rfl, rfl, rfl, rfl, fun _ => Or.inr (by decide)⟩
  · exact ⟨_, rfl, rfl, rfl, rfl, fun _ => Or.inl (by decide)⟩

/-! ## What `fetchSubGroups` returns -/

/-- C1. For an HTTP-200 response whose body is read in full: when the body is a
JSON array whose elements encode the Subgroup records `ss` (in order, any
number of them, none included), `fetchSubGroups` returns exactly `ss`; when the
body is a single bare object that encodes the record `s`, it returns the
one-element sequence `[s]`. -/
theorem fetchSubGroups_returns_encoded (env : Env) (g : Globals) (url : String) (fs : FS)
    (resp : Response) (v : JSON) (ss : List Subgroup)
    (hhttp : env.http g.accessToken url = HttpResult.response resp)
    (hst : resp.status = 200) (hread : resp.readFails = false) (hclose : resp.closeFails = false)
    (hparse : parseJSON resp.body = some v)
    (hshape : (∃ vs, v = JSON.arr vs ∧ List.Forall₂ IsSubgroupObject vs ss) ∨
      (∃ s, IsSubgroupObject v s ∧ ss = [s])) :
    fetchSubGroups env g url fs = ⟨[Event.request url (some 200)], fs, Outcome.ok ss⟩ := by
  rcases hshape with ⟨vs, rfl, hvs⟩ | ⟨s, hs, rfl⟩
  · have hm := map_decode_of_encodes hvs
    simp [fetchSubGroups, request_of_200 hhttp hst, hread, hclose, unmarshalSubgroups, hparse,
      hm.1, hm.2]
  · have hd := decodeSubgroup_of_encodes hs Subgroup.zero
    obtain ⟨ms, lit, rfl, -⟩ := hs
    simp [fetchSubGroups, request_of_200 hhttp hst, hread, hclose, unmarshalSubgroups,
      unmarshalSubgroup, hparse, hd]

/-- C1, on sample bodies: a one-element array gives one record with `id = 1`
and `full_path = "g/x"`; a bare object gives a one-element sequence with
`id = 2`; the empty array gives the empty sequence. -/
theorem fetchSubGroups_returns_encoded_witness :
    fetchSubGroups (fixedBody "[\x7b\"id\":1,\"path\":\"x\",\"full_path\":\"g/x\"\x7d]") sampleGlobals
        "https://gitlab.example/api/v4/groups/42/subgroups/" []
      = ⟨[Event.request "https://gitlab.example/api/v4/groups/42/subgroups/" (some 200)], [],
          Outcome.ok [⟨1, "x", "g/x"⟩]⟩ ∧
    fetchSubGroups (fixedBody "\x7b\"id\":2,\"path\":\"y\",\"full_path\":\"g/y\"\x7d") sampleGlobals
        "https://gitlab.example/api/v4/groups/42/" []
      = ⟨[Event.request "https://gitlab.example/api/v4/groups/42/" (some 200)], [],
          Outcome.ok [⟨2, "y", "g/y"⟩]⟩ ∧
    fetchSubGroups (fixedBody "[]") sampleGlobals
        "https://gitlab.example/api/v4/groups/42/subgroups/" []
      = ⟨[Event.request "https://gitlab.example/api/v4/groups/42/subgroups/" (some 200)], [],
          Outcome.ok []⟩ :=
  ⟨fetchSubGroups_returns_encoded _ _ _ _
      ⟨200, "[\x7b\"id\":1,\"path\":\"x\",\"full_path\":\"g/x\"\x7d]", false, false⟩
      (JSON.arr [JSON.obj [("id", JSON.num ['1']), ("path", JSON.str "x"),
        ("full_path", JSON.str "g/x")]])
      [⟨1, "x", "g/x"⟩] rfl rfl rfl rfl rfl
      (Or.inl ⟨_, rfl, List.Forall₂.cons ⟨_, ['1'], rfl, by decide, rfl, rfl, rfl⟩ List.Forall₂.nil⟩),
   fetchSubGroups_returns_encoded _ _ _ _
      ⟨200, "\x7b\"id\":2,\"path\":\"y\",\"full_path\":\"g/y\"\x7d", false, false⟩
      (JSON.obj [("id", JSON.num ['2']), ("path", JSON.str "y"), ("full_path", JSON.str "g/y")])
      [⟨2, "y", "g/y"⟩] rfl rfl rfl rfl rfl
      (Or.inr ⟨⟨2, "y", "g/y"⟩, ⟨_, ['2'], rfl, by decide, rfl, rfl, rfl⟩, rfl⟩),
   fetchSubGroups_returns_encoded _ _ _ _ ⟨200, "[]", false, false⟩ (JSON.arr []) []
      rfl rfl rfl rfl rfl (Or.inl ⟨_, rfl, List.Forall₂.nil⟩)⟩

theorem storeMembers_of_no_match (ms : List (String × JSON)) (s : Subgroup) (e : Bool)
    (h : ∀ m ∈ ms, keyMatches m.1 "id" = false ∧ keyMatches m.1 "path" = false ∧
      keyMatches m.1 "full_path" = false) :
    Subgroup.storeMembers ms (s, e) = (s, e) := by
  induction ms with
  | nil => rfl
  | cons m ms ih =>
    have hm := h m (by simp)
    have hstep : s.storeMember m = (s, false) := by
      unfold Subgroup.storeMember
      simp [hm.1, hm.2.1, hm.2.2]
    rw [Subgroup.storeMembers, hstep]
    simp only [Bool.or_false]
    exact ih (fun x hx => h x (List.mem_cons_of_mem _ hx))

/-- C7, as stated, fails. The body `{"message":"403 Forbidden"}` is valid JSON,
is not an array, and is not an object that encodes any Subgroup record (it has
no `id`, `path` or `full_path`); all the same `fetchSubGroups` returns a
sequence on it, the one-element sequence holding the zero record, because the
single-object attempt skips the unknown member and reports no error. Likewise
the body `null` is returned as the empty sequence and `[null]` as one zero
record. A run of `main` against a server that answers every request with the
error object completes, after asking for the projects and subgroups of group
`0`. -/
theorem fetchSubGroups_returns_on_error_object :
    parseJSON "\x7b\"message\":\"403 Forbidden\"\x7d" =
      some (JSON.obj [("message", JSON.str "403 Forbidden")]) ∧
    (¬ ∃ vs, JSON.obj [("message", JSON.str "403 Forbidden")] = JSON.arr vs) ∧
    (¬ ∃ s, IsSubgroupObject (JSON.obj [("message", JSON.str "403 Forbidden")]) s) ∧
    fetchSubGroups (fixedBody "\x7b\"message\":\"403 Forbidden\"\x7d") sampleGlobals
        "https://gitlab.example/api/v4/groups/42/" [] =
      ⟨[Event.request "https://gitlab.example/api/v4/groups/42/" (some 200)], [],
        Outcome.ok [⟨0, "", ""⟩]⟩ ∧
    (fetchSubGroups (fixedBody "null") sampleGlobals
        "https://gitlab.example/api/v4/groups/42/" []).out = Outcome.ok [] ∧
    (fetchSubGroups (fixedBody "[null]") sampleGlobals
        "https://gitlab.example/api/v4/groups/42/" []).out = Outcome.ok [⟨0, "", ""⟩] ∧
    (main (fixedBody "\x7b\"message\":\"403 Forbidden\"\x7d") sampleFlags []).out =
      Outcome.ok () ∧
    requestUrls (main (fixedBody "\x7b\"message\":\"403 Forbidden\"\x7d") sampleFlags []).events =
      ["https://gitlab.example/api/v4/groups/42/",
       "https://gitlab.example/api/v4/groups/0/projects?archived=false&per_page=1000&with_shared=false",
       "https://gitlab.example/api/v4/groups/0/subgroups/",
       "https://gitlab.example/api/v4/groups/0/projects?archived=false&per_page=1000&with_shared=false",
       "https://gitlab.example/api/v4/groups/0/subgroups/",
       "https://gitlab.example/api/v4/groups/0/projects?archived=false&per_page=1000&with_shared=false"] := by
  refine ⟨rfl, ?_, ?_, by decide, by decide, by decide, by decide, by decide⟩
  · rintro ⟨vs, h⟩
    cases h
  · rintro ⟨s, ms, lit, hv, _, hid, _⟩
    cases hv
    have hnone : (List.filter (fun m : String × JSON => keyMatches m.1 "id")
        [("message", JSON.str "403 Forbidden")]).map Prod.snd = [] := rfl
    rw [hnone] at hid
    cases hid

/-- C7, amended. For an HTTP-200 response whose body is read in full,
`fetchSubGroups` exits fatally at the unmarshal step, returning nothing, exactly
when both attempts fail: the body neither decodes into a `[]Subgroup` (it is not
`null` and not an array whose elements are each `null` or an object with
well-typed `id`, `path` and `full_path` members, if it has them) nor decodes
into a `Subgroup` (it is not `null` and not such an object). Whenever it
returns a sequence, one of the two attempts has succeeded; the sequence attempt
comes first (a body it accepts is returned as decoded), and only a body it
rejects is decoded as a single object and wrapped into a one-element sequence.
No member is required of an object: one without `id`, `path` and `full_path` is
accepted and returned as the zero record. -/
theorem fetchSubGroups_fatal_unless_shaped (env : Env) (g : Globals) (url : String) (fs : FS)
    (resp : Response)
    (hhttp : env.http g.accessToken url = HttpResult.response resp)
    (hst : resp.status = 200) (hread : resp.readFails = false) :
    (fetchSubGroups env g url fs =
        ⟨[Event.request url (some 200)], fs, Outcome.fatal Fatal.unmarshaling⟩ ↔
      bodyIsSubgroupSeq resp.body = false ∧ bodyIsSubgroupObject resp.body = false) ∧
    (∀ ss, (fetchSubGroups env g url fs).out = Outcome.ok ss →
      bodyIsSubgroupSeq resp.body = true ∨ bodyIsSubgroupObject resp.body = true) ∧
    (resp.closeFails = false → bodyIsSubgroupSeq resp.body = true →
      (fetchSubGroups env g url fs).out = Outcome.ok (unmarshalSubgroups resp.body).1) ∧
    (resp.closeFails = false → bodyIsSubgroupSeq resp.body = false →
      bodyIsSubgroupObject resp.body = true →
      (fetchSubGroups env g url fs).out = Outcome.ok [(unmarshalSubgroup resp.body).1]) ∧
    (resp.closeFails = false → ∀ ms, parseJSON resp.body = some (JSON.obj ms) →
      (∀ m ∈ ms, keyMatches m.1 "id" = false ∧ keyMatches m.1 "path" = false ∧
        keyMatches m.1 "full_path" = false) →
      (fetchSubGroups env g url fs).out = Outcome.ok [Subgroup.zero]) := by
  have hreq := request_of_200 hhttp hst
  have hfatal : bodyIsSubgroupSeq resp.body = false ∧ bodyIsSubgroupObject resp.body = false →
      fetchSubGroups env g url fs =
        ⟨[Event.request url (some 200)], fs, Outcome.fatal Fatal.unmarshaling⟩ := by
    rintro ⟨h1, h2⟩
    simp [fetchSubGroups, hreq, hread, unmarshalSubgroups_err, unmarshalSubgroup_err, h1, h2]
  have hseq : resp.closeFails = false → bodyIsSubgroupSeq resp.body = true →
      (fetchSubGroups env g url fs).out = Outcome.ok (unmarshalSubgroups resp.body).1 := by
    intro hc h1
    simp [fetchSubGroups, hreq, hread, hc, unmarshalSubgroups_err, h1]
  have hobj : resp.closeFails = false → bodyIsSubgroupSeq resp.body = false →
      bodyIsSubgroupObject resp.body = true →
      (fetchSubGroups env g url fs).out = Outcome.ok [(unmarshalSubgroup resp.body).1] := by
    intro hc h1 h2
    simp [fetchSubGroups, hreq, hread, hc, unmarshalSubgroups_err, unmarshalSubgroup_err, h1, h2,
      unmarshalSubgroups_nil_of_object h1 h2]
  refine ⟨⟨?_, hfatal⟩, ?_, hseq, hobj, ?_⟩
  · intro h
    have hout : (fetchSubGroups env g url fs).out = Outcome.fatal Fatal.unmarshaling := by rw [h]
    by_cases h1 : bodyIsSubgroupSeq resp.body = true
    · exfalso
      cases hc : resp.closeFails <;>
        simp [fetchSubGroups, hreq, hread, hc, unmarshalSubgroups_err, h1] at hout
    · have h1' : bodyIsSubgroupSeq resp.body = false := by simpa using h1
      refine ⟨h1', ?_⟩
      by_contra h2
      have h2' : bodyIsSubgroupObject resp.body = true := by simpa using h2
      cases hc : resp.closeFails <;>
        simp [fetchSubGroups, hreq, hread, hc, unmarshalSubgroups_err, unmarshalSubgroup_err,
          h1', h2'] at hout
  · intro ss hss
    by_contra hcon
    simp only [not_or, Bool.not_eq_true] at hcon
    rw [hfatal hcon] at hss
    cases hss
  · intro hc ms hparse hms
    have h1 : bodyIsSubgroupSeq resp.body = false := by
      simp [bodyIsSubgroupSeq, hparse, fitsSubgroupSeq]
    have hdec : unmarshalSubgroup resp.body = (Subgroup.zero, false) := by
      simp only [unmarshalSubgroup, hparse, decodeSubgroup]
      exact storeMembers_of_no_match ms Subgroup.zero false hms
    have h2 : bodyIsSubgroupObject resp.body = true := by
      have := unmarshalSubgroup_err resp.body
      rw [hdec] at this
      simpa using this.symm
    rw [hobj hc h1 h2, hdec]

/-- C7 amended, on sample bodies: text that is not JSON, a JSON string, an array
with a number in it and an object whose `id` is a string are fatal; an error
object without Subgroup fields is returned as the zero record. -/
theorem fetchSubGroups_fatal_unless_shaped_witness :
    fetchSubGroups (fixedBody "<html>Sign in</html>") sampleGlobals "u" [] =
      ⟨[Event.request "u" (some 200)], [], Outcome.fatal Fatal.unmarshaling⟩ ∧
    fetchSubGroups (fixedBody "\"group\"") sampleGlobals "u" [] =
      ⟨[Event.request "u" (some 200)], [], Outcome.fatal Fatal.unmarshaling⟩ ∧
    fetchSubGroups (fixedBody "[\x7b\"id\":1\x7d, 2]") sampleGlobals "u" [] =
      ⟨[Event.request "u" (some 200)], [], Outcome.fatal Fatal.unmarshaling⟩ ∧
    fetchSubGroups (fixedBody "\x7b\"id\":\"7\",\"path\":\"y\"\x7d") sampleGlobals "u" [] =
      ⟨[Event.request "u" (some 200)], [], Outcome.fatal Fatal.unmarshaling⟩ ∧
    (fetchSubGroups (fixedBody "\x7b\"message\":\"403 Forbidden\"\x7d") sampleGlobals "u" []).out =
      Outcome.ok [Subgroup.zero] :=
  ⟨(fetchSubGroups_fatal_unless_shaped _ _ _ _ ⟨200, "<html>Sign in</html>", false, false⟩
      rfl rfl rfl).1.2 ⟨by decide, by decide⟩,
   (fetchSubGroups_fatal_unless_shaped _ _ _ _ ⟨200, "\"group\"", false, false⟩
      rfl rfl rfl).1.2 ⟨by decide, by decide⟩,
   (fetchSubGroups_fatal_unless_shaped _ _ _ _ ⟨200, "[\x7b\"id\":1\x7d, 2]", false, false⟩
      rfl rfl rfl).1.2 ⟨by decide, by decide⟩,
   (fetchSubGroups_fatal_unless_shaped _ _ _ _ ⟨200, "\x7b\"id\":\"7\",\"path\":\"y\"\x7d", false, false⟩
      rfl rfl rfl).1.2 ⟨by decide, by decide⟩,
   (fetchSubGroups_fatal_unless_shaped _ _ _ _ ⟨200, "\x7b\"message\":\"403 Forbidden\"\x7d", false, false⟩
      rfl rfl rfl).2.2.2.2 rfl [("message", JSON.str "403 Forbidden")] rfl (by decide)⟩

/-! ## `cloneGitProject` -/

/-- C6. `cloneGitProject` checks for an existing clone at the join of the clone
directory and the project path, where the clone directory is the join of
`baseDir` and the group's `full_path`; when nothing is found there it creates
the clone directory and runs `git clone` with it as working directory. For
`baseDir = "/data"`, `full_path = "team/backend"` and project path
`"service-a"` the clone directory is `/data/team/backend` and the repository
location is `/data/team/backend/service-a`. -/
theorem cloneGitProject_paths :
    (∀ (env : Env) (g : Globals) (gitProjectUrl fullPath projectPath : String) (fs : FS),
      (cloneGitProject env g gitProjectUrl fullPath projectPath fs).events =
        (if Join [Join [g.baseDir, fullPath], projectPath] ∈ fs then
          [Event.cloneCall gitProjectUrl fullPath projectPath,
            Event.stat (Join [Join [g.baseDir, fullPath], projectPath])]
        else
          [Event.cloneCall gitProjectUrl fullPath projectPath,
            Event.stat (Join [Join [g.baseDir, fullPath], projectPath]),
            Event.mkdirAll (Join [g.baseDir, fullPath]),
            Event.gitClone gitProjectUrl (Join [g.baseDir, fullPath])])) ∧
    Join ["/data", "team/backend"] = "/data/team/backend" ∧
    Join [Join ["/data", "team/backend"], "service-a"] = "/data/team/backend/service-a" ∧
    (cloneGitProject (fixedBody "") sampleGlobals "https://gitlab.example/team/backend/service-a.git"
        "team/backend" "service-a" []).events =
      [Event.cloneCall "https://gitlab.example/team/backend/service-a.git" "team/backend" "service-a",
        Event.stat "/data/team/backend/service-a",
        Event.mkdirAll "/data/team/backend",
        Event.gitClone "https://gitlab.example/team/backend/service-a.git" "/data/team/backend"] := by
  refine ⟨?_, by decide, by decide, by decide⟩
  intro env g gitProjectUrl fullPath projectPath fs
  unfold cloneGitProject
  by_cases h : Join [Join [g.baseDir, fullPath], projectPath] ∈ fs <;> simp [h]

/-- C5. When the directory `path.Join(baseDir, fullPath, projectPath)` already
exists (it is the path the function checks, the join of the clone directory and
the project path), `cloneGitProject` returns `nil` after the `os.Stat` check
alone: no directory is created, no `git clone` is run, and the filesystem is
left as it was. In particular a second invocation that finds the directory in
the state left by a first one does nothing and succeeds. -/
theorem cloneGitProject_skips_existing (env : Env) (g : Globals)
    (gitProjectUrl fullPath projectPath : String) (fs : FS)
    (hexists : Join [g.baseDir, fullPath, projectPath] ∈ fs) :
    cloneGitProject env g gitProjectUrl fullPath projectPath fs =
        ⟨[Event.cloneCall gitProjectUrl fullPath projectPath,
            Event.stat (Join [g.baseDir, fullPath, projectPath])], fs, Outcome.ok none⟩ ∧
    (∀ fs0 : FS,
      Join [g.baseDir, fullPath, projectPath] ∈
          (cloneGitProject env g gitProjectUrl fullPath projectPath fs0).fs →
        cloneGitProject env g gitProjectUrl fullPath projectPath
            (cloneGitProject env g gitProjectUrl fullPath projectPath fs0).fs =
          ⟨[Event.cloneCall gitProjectUrl fullPath projectPath,
              Event.stat (Join [g.baseDir, fullPath, projectPath])],
            (cloneGitProject env g gitProjectUrl fullPath projectPath fs0).fs, Outcome.ok none⟩) := by
  rw [← Join_Join] at hexists ⊢
  constructor
  · unfold cloneGitProject
    simp [hexists]
  · intro fs0 h
    generalize (cloneGitProject env g gitProjectUrl fullPath projectPath fs0).fs = fs1 at h
    unfold cloneGitProject
    simp [h]

/-- C5, on a sample: with `/data/team/backend/service-a` present the call only
looks; and on an empty disk where `git clone` creates that directory, the
second of two calls only looks. -/
theorem cloneGitProject_skips_existing_witness :
    cloneGitProject cloningDisk sampleGlobals "https://gitlab.example/team/backend/service-a.git"
        "team/backend" "service-a" ["/data/team/backend/service-a"] =
      ⟨[Event.cloneCall "https://gitlab.example/team/backend/service-a.git" "team/backend"
          "service-a", Event.stat "/data/team/backend/service-a"],
        ["/data/team/backend/service-a"], Outcome.ok none⟩ ∧
    cloneGitProject cloningDisk sampleGlobals "https://gitlab.example/team/backend/service-a.git"
        "team/backend" "service-a"
        (cloneGitProject cloningDisk sampleGlobals
          "https://gitlab.example/team/backend/service-a.git" "team/backend" "service-a" []).fs =
      ⟨[Event.cloneCall "https://gitlab.example/team/backend/service-a.git" "team/backend"
          "service-a", Event.stat "/data/team/backend/service-a"],
        ["/data/team/backend/service-a", "/data/team/backend"], Outcome.ok none⟩ :=
  ⟨(cloneGitProject_skips_existing cloningDisk sampleGlobals
      "https://gitlab.example/team/backend/service-a.git" "team/backend" "service-a"
      ["/data/team/backend/service-a"] (by decide)).1,
   (cloneGitProject_skips_existing cloningDisk sampleGlobals
      "https://gitlab.example/team/backend/service-a.git" "team/backend" "service-a"
      ["/data/team/backend/service-a"] (by decide)).2 [] (by decide)⟩

/-- C10, as stated, fails, in two ways. With `baseDir = "/data"` and a
`full_path` of `../x` the clone directory is `/x`, which is neither `/data` nor
below it, and `cloneGitProject` hands that directory to `os.MkdirAll` and runs
`git clone` in it. And with a harmless `full_path`, `os.MkdirAll` creates the
missing parents of the clone directory too: with `baseDir = "/srv/mirror"` on an
empty disk the call creates `/srv`, which is outside the base directory. -/
theorem cloneDir_escapes_baseDir :
    Clean "/data" = "/data" ∧
    Join ["/data", "../x"] = "/x" ∧
    isWithin (Clean "/data") (Join ["/data", "../x"]) = false ∧
    "/x" ≠ "/data" ∧ ¬ ("/data/".data <+: "/x".data) ∧
    (cloneGitProject (fixedBody "") sampleGlobals "https://gitlab.example/x/p.git" "../x" "p"
        []).events =
      [Event.cloneCall "https://gitlab.example/x/p.git" "../x" "p", Event.stat "/x/p",
        Event.mkdirAll "/x", Event.gitClone "https://gitlab.example/x/p.git" "/x"] ∧
    (cloneGitProject parentMakingDisk mirrorGlobals "https://gitlab.example/team/p.git" "team" "p"
        []).fs = ["/srv", "/srv/mirror", "/srv/mirror/team"] ∧
    isWithin (Clean "/srv/mirror") "/srv" = false := by
  refine ⟨by decide, by decide, by decide, by decide, ?_, by decide, by decide, by decide⟩
  intro h
  have := List.IsPrefix.length_le h
  revert this
  decide

/-- C10, amended. For a non-empty base directory and a `full_path` none of whose
slash-separated elements is `..`, the clone working directory, the cleaned path
join of `baseDir` and `full_path`, is lexically the cleaned `baseDir` itself or
a descendant of it; and it is the path `cloneGitProject` hands to `os.MkdirAll`
and the directory it runs `git clone` in. Nothing is said of the parents that
`os.MkdirAll` creates on the way. -/
theorem cloneDir_within_baseDir (env : Env) (g : Globals)
    (gitProjectUrl fullPath projectPath : String) (fs : FS)
    (hbase : g.baseDir ≠ "")
    (hpath : ∀ e ∈ splitSlash fullPath.data, e ≠ ['.', '.']) :
    isWithin (Clean g.baseDir) (Join [g.baseDir, fullPath]) = true ∧
    ∀ ev ∈ (cloneGitProject env g gitProjectUrl fullPath projectPath fs).events,
      ∀ dir, (ev = Event.mkdirAll dir ∨ ∃ u, ev = Event.gitClone u dir) →
        dir = Join [g.baseDir, fullPath] ∧ isWithin (Clean g.baseDir) dir = true := by
  have hw := Join_within g.baseDir fullPath hbase hpath
  refine ⟨hw, ?_⟩
  intro ev hev dir hdir
  have hd : dir = Join [g.baseDir, fullPath] := by
    unfold cloneGitProject at hev
    by_cases h : Join [Join [g.baseDir, fullPath], projectPath] ∈ fs
    · simp only [h, if_true, List.mem_cons, List.mem_singleton, List.mem_nil_iff, or_false] at hev
      rcases hev with rfl | rfl <;> rcases hdir with h1 | ⟨u, h1⟩ <;> cases h1
    · simp only [h, if_false, List.mem_cons, List.mem_singleton, List.mem_nil_iff, or_false] at hev
      rcases hev with rfl | rfl | rfl | rfl <;> rcases hdir with h1 | ⟨u, h1⟩ <;> cases h1 <;> rfl
  exact ⟨hd, hd ▸ hw⟩

/-- C10 amended, on a sample: `/data` joined with `team/backend`. -/
theorem cloneDir_within_baseDir_witness :
    isWithin (Clean "/data") (Join ["/data", "team/backend"]) = true ∧
    ∀ ev ∈ (cloneGitProject (fixedBody "") sampleGlobals "https://gitlab.example/t/b/a.git"
        "team/backend" "service-a" []).events,
      ∀ dir, (ev = Event.mkdirAll dir ∨ ∃ u, ev = Event.gitClone u dir) →
        dir = Join ["/data", "team/backend"] ∧ isWithin (Clean "/data") dir = true :=
  cloneDir_within_baseDir (fixedBody "") sampleGlobals "https://gitlab.example/t/b/a.git"
    "team/backend" "service-a" [] (by decide) (by decide)

/-! ## URLs -/

/-- C8. With the host `h` given as `gitlabBaseURL`, the three URL builders give,
for a group identifier `gid`: the group-detail URL
`https://h/api/v4/groups/gid/`, the subgroups URL, which is the group-detail URL
followed by `subgroups/`, and the project-listing URL
`https://h/api/v4/groups/gid/projects?archived=false&per_page=1000&with_shared=false`.
Every URL a run of `main` requests is one of these: the group detail of the
`groupId` flag, or the project listing or the subgroups listing of a group
named by the decimal form of a record's `id`. -/
theorem api_urls (flags : Globals) (gid : String) :
    getGroupApiURL (withApiURL flags) gid =
      "https://" ++ flags.gitlabBaseURL ++ "/api/v4/groups/" ++ gid ++ "/" ∧
    getSubGroupdApiURL (withApiURL flags) gid =
      "https://" ++ flags.gitlabBaseURL ++ "/api/v4/groups/" ++ gid ++ "/" ++ "subgroups/" ∧
    projectsUrl (withApiURL flags) gid =
      "https://" ++ flags.gitlabBaseURL ++ "/api/v4/groups/" ++ gid ++
        "/projects?archived=false&per_page=1000&with_shared=false" ∧
    ∀ (env : Env) (fs : FS), ∀ u ∈ requestUrls (main env flags fs).events,
      u = "https://" ++ flags.gitlabBaseURL ++ "/api/v4/groups/" ++ flags.groupId ++ "/" ∨
      ∃ n : Int,
        u = "https://" ++ flags.gitlabBaseURL ++ "/api/v4/groups/" ++ Itoa n ++
          "/projects?archived=false&per_page=1000&with_shared=false" ∨
        u = "https://" ++ flags.gitlabBaseURL ++ "/api/v4/groups/" ++ Itoa n ++ "/" ++
          "subgroups/" := by
  have key : ∀ a b : String, "https://" ++ a ++ "/api/v4" ++ "/groups/" ++ b =
      "https://" ++ a ++ "/api/v4/groups/" ++ b := by
    intro a b
    have : ("/api/v4" : String) ++ "/groups/" = "/api/v4/groups/" := by decide
    rw [String.append_assoc ("https://" ++ a), this]
  have e1 : ∀ x, getGroupApiURL (withApiURL flags) x =
      "https://" ++ flags.gitlabBaseURL ++ "/api/v4/groups/" ++ x ++ "/" := by
    intro x; simp only [getGroupApiURL, withApiURL]; rw [key]
  have e2 : ∀ x, getSubGroupdApiURL (withApiURL flags) x =
      "https://" ++ flags.gitlabBaseURL ++ "/api/v4/groups/" ++ x ++ "/" ++ "subgroups/" := by
    intro x; simp only [getSubGroupdApiURL, getGroupApiURL, withApiURL]; rw [key]
  have e3 : ∀ x, projectsUrl (withApiURL flags) x =
      "https://" ++ flags.gitlabBaseURL ++ "/api/v4/groups/" ++ x ++
        "/projects?archived=false&per_page=1000&with_shared=false" := by
    intro x; simp only [projectsUrl, withApiURL]; rw [key]
  refine ⟨e1 gid, e2 gid, e3 gid, ?_⟩
  intro env fs u hu
  rcases mem_requestUrls_main hu with h | ⟨n, h | h⟩
  · left; rw [h, e1]
  · right; exact ⟨n, Or.inl (by rw [h, e3])⟩
  · right; exact ⟨n, Or.inr (by rw [h, e2])⟩

/-! ## Two defects -/

/-- C3 does not hold of the code. A 200 answer of the projects endpoint whose
body is a JSON object, or is not JSON at all, fails to unmarshal into
`[]Project`, and `listProjectsAndClone` returns normally all the same: the
error is never looked at. When the body is an array with an ill-typed field, the
unmarshal error is also ignored and the half-decoded project is passed to the
clone step. A whole run over a server that answers every projects request with
an error object completes as if all had been cloned. -/
theorem listProjectsAndClone_ignores_unmarshal_error :
    (unmarshalProjects "\x7b\"message\":\"403 Forbidden\"\x7d").2 = true ∧
    listProjectsAndClone (fixedBody "\x7b\"message\":\"403 Forbidden\"\x7d") sampleGlobals "42" "team" [] =
      ⟨[Event.request (projectsUrl sampleGlobals "42") (some 200)], [], Outcome.ok ()⟩ ∧
    (unmarshalProjects "<html>Sign in</html>").2 = true ∧
    listProjectsAndClone (fixedBody "<html>Sign in</html>") sampleGlobals "42" "team" [] =
      ⟨[Event.request (projectsUrl sampleGlobals "42") (some 200)], [], Outcome.ok ()⟩ ∧
    (unmarshalProjects "[\x7b\"id\":\"x\",\"http_url_to_repo\":\"u\",\"path\":\"p\"\x7d]").2 = true ∧
    cloneCalls (listProjectsAndClone
        (fixedBody "[\x7b\"id\":\"x\",\"http_url_to_repo\":\"u\",\"path\":\"p\"\x7d]")
        sampleGlobals "42" "team" []).events = [("u", "team", "p")] ∧
    (main (quietDisk brokenListingServer) sampleFlags []).out = Outcome.ok () ∧
    cloneCalls (main (quietDisk brokenListingServer) sampleFlags []).events = [] := by
  refine ⟨by decide, by decide, by decide, by decide, by decide, by decide, by decide, by decide⟩

/-- C9 does not hold of the code. On a 200 answer of the group-detail endpoint
with body `[]` (or `null`) `fetchSubGroups` returns normally with an empty
sequence, and `main`, which takes element 0 of it, panics with an index out of
range. -/
theorem main_panics_on_empty_root :
    fetchSubGroups (fixedBody "[]") (withApiURL sampleFlags)
        (getGroupApiURL (withApiURL sampleFlags) "42") [] =
      ⟨[Event.request "https://gitlab.example/api/v4/groups/42/" (some 200)], [], Outcome.ok []⟩ ∧
    main (fixedBody "[]") sampleFlags [] =
      ⟨[Event.request "https://gitlab.example/api/v4/groups/42/" (some 200)], [],
        Outcome.indexPanic⟩ ∧
    main (fixedBody "null") sampleFlags [] =
      ⟨[Event.request "https://gitlab.example/api/v4/groups/42/" (some 200)], [],
        Outcome.indexPanic⟩ := by
  refine ⟨by decide, by decide, by decide⟩

/-! ## The walk of `main` -/

theorem childLoop_ok (env : Env) (g : Globals) (children : List Subgroup) (fs : FS)
    (h : (childLoop env g children fs).out = Outcome.ok ()) :
    cloneCalls (childLoop env g children fs).events = children.flatMap (groupCalls env g) ∧
    requestUrls (childLoop env g children fs).events =
      children.map (fun child => projectsUrl g (Itoa child.ID)) := by
  induction children generalizing fs with
  | nil => simp [childLoop, cloneCalls, requestUrls]
  | cons c cs ih =>
    rw [childLoop] at h ⊢
    obtain ⟨u, h1, h2, h3⟩ := andThen_ok h
    have hl := listProjectsAndClone_ok env g c fs h1
    have := ih _ h2
    rw [h3, cloneCalls_append, requestUrls_append, hl.1, hl.2, this.1, this.2]
    simp

theorem subgroupLoop_ok (env : Env) (g : Globals) (subs : List Subgroup) (fs : FS)
    (h : (subgroupLoop env g subs fs).out = Outcome.ok ()) :
    cloneCalls (subgroupLoop env g subs fs).events =
      subs.flatMap (fun sub =>
        groupCalls env g sub ++
          (listedGroups env g (getSubGroupdApiURL g (Itoa sub.ID))).flatMap (groupCalls env g)) ∧
    requestUrls (subgroupLoop env g subs fs).events =
      subs.flatMap (fun sub =>
        [projectsUrl g (Itoa sub.ID), getSubGroupdApiURL g (Itoa sub.ID)] ++
          (listedGroups env g (getSubGroupdApiURL g (Itoa sub.ID))).map
            (fun child => projectsUrl g (Itoa child.ID))) := by
  induction subs generalizing fs with
  | nil => simp [subgroupLoop, cloneCalls, requestUrls]
  | cons s ss ih =>
    rw [subgroupLoop] at h ⊢
    obtain ⟨u, h1, h2, h3⟩ := andThen_ok h
    obtain ⟨children, h4, h5, h6⟩ := andThen_ok h2
    obtain ⟨u2, h7, h8, h9⟩ := andThen_ok h5
    have hl := listProjectsAndClone_ok env g s fs h1
    have hf := fetchSubGroups_ok h4
    have hc := childLoop_ok env g children _ h7
    have hr := ih _ h8
    rw [h3, h6, h9]
    simp only [cloneCalls_append, requestUrls_append, hl.1, hl.2, hf.1, hf.2.2, hc.1, hc.2,
      hr.1, hr.2, List.flatMap_cons]
    simp [cloneCalls, requestUrls]

/-- C2. A run in which every API request and every clone step succeeds, and
whose group-detail answer holds a root record, completes. In every run that
completes, the group-detail answer yields a root record and the clone
invocations are, in order: the root's listed projects with the root's
`full_path`; then for each immediate subgroup in API order its listed projects
with its `full_path`, followed by the listed projects of each of its immediate
children with the child's `full_path`. The requests of the run are the group
detail, then projects and subgroups of the root, then for each subgroup its
projects, its subgroups, and the projects of each child: the subgroups of a
child are never asked for, so nothing deeper is listed or cloned. -/
theorem main_clone_sequence (env : Env) (flags : Globals) (fs : FS) :
    (flags.accessToken ≠ "" ∧ flags.baseDir ≠ "" ∧ flags.gitlabBaseURL ≠ "" ∧
        flags.groupId ≠ "" →
      AllSucceed env (withApiURL flags) →
      listedGroups env (withApiURL flags) (getGroupApiURL (withApiURL flags) flags.groupId) ≠ [] →
      (main env flags fs).out = Outcome.ok ()) ∧
    ((main env flags fs).out = Outcome.ok () →
      ∃ root others,
        listedGroups env (withApiURL flags) (getGroupApiURL (withApiURL flags) flags.groupId) =
          root :: others ∧
        cloneCalls (main env flags fs).events = expectedCalls env (withApiURL flags) root ∧
        requestUrls (main env flags fs).events = expectedRequests env (withApiURL flags) root) := by
  refine ⟨fun hflags hall hroot => main_succeeds fs hflags hall hroot, ?_⟩
  intro hok
  unfold main at hok ⊢
  split_ifs at hok ⊢ with hflags
  · simp only at hok ⊢
    obtain ⟨found, h1, h2, h3⟩ := andThen_ok hok
    have hf := fetchSubGroups_ok h1
    cases found with
    | nil => simp at h2
    | cons root others =>
      simp only at h2 h3
      obtain ⟨u, h4, h5, h6⟩ := andThen_ok h2
      obtain ⟨subs, h7, h8, h9⟩ := andThen_ok h5
      have hl := listProjectsAndClone_ok env (withApiURL flags) root _ h4
      have hs := fetchSubGroups_ok h7
      have hloop := subgroupLoop_ok env (withApiURL flags) subs _ h8
      refine ⟨root, others, hf.2.2, ?_, ?_⟩
      · rw [h3, h6, h9]
        simp only [cloneCalls_append, hl.1, hloop.1, hf.1, hs.1, expectedCalls, hs.2.2]
        simp [cloneCalls]
      · rw [h3, h6, h9]
        simp only [requestUrls_append, hl.2, hloop.2, hf.1, hs.1, expectedRequests, hs.2.2]
        simp [requestUrls, withApiURL]

set_option maxRecDepth 20000 in
/-- C2, on samples. On a server where every request succeeds the run completes.
On the sample server the run completes with four clone invocations, one for the
root's project, two for the subgroup's and one for the child's, each with the
`full_path` of its group; the project of the group three levels down is not
among them, and nothing is requested about that group. -/
theorem main_clone_sequence_witness :
    (main (quietDisk flatServer) sampleFlags []).out = Outcome.ok () ∧
    (main (quietDisk sampleServer) sampleFlags []).out = Outcome.ok () ∧
    cloneCalls (main (quietDisk sampleServer) sampleFlags []).events =
      [("https://gitlab.example/team/docs.git", "team", "docs"),
       ("https://gitlab.example/team/backend/service-a.git", "team/backend", "service-a"),
       ("https://gitlab.example/team/backend/service-b.git", "team/backend", "service-b"),
       ("https://gitlab.example/team/backend/core/lib.git", "team/backend/core", "lib")] ∧
    (∃ root others,
      listedGroups (quietDisk sampleServer) (withApiURL sampleFlags)
          (getGroupApiURL (withApiURL sampleFlags) sampleFlags.groupId) = root :: others ∧
      cloneCalls (main (quietDisk sampleServer) sampleFlags []).events =
        expectedCalls (quietDisk sampleServer) (withApiURL sampleFlags) root ∧
      requestUrls (main (quietDisk sampleServer) sampleFlags []).events =
        expectedRequests (quietDisk sampleServer) (withApiURL sampleFlags) root) :=
  ⟨(main_clone_sequence (quietDisk flatServer) sampleFlags []).1 (by decide)
      flatServer_allSucceed (by decide),
   by decide, by decide,
   (main_clone_sequence (quietDisk sampleServer) sampleFlags []).2 (by decide)⟩

/-- C4. For a request that is answered at all: `request` returns an error
exactly when the status is not 200. With such a status `fetchSubGroups` and
`listProjectsAndClone` end the run fatally right after the request, with no
clone invocation. In a run of `main`, a request answered with a status other
than 200 is the last event of the run, and the run has ended fatally: no clone
invocation, and nothing else, comes after it. -/
theorem non200_ends_run (env : Env) (g : Globals) (url : String) (resp : Response)
    (hhttp : env.http g.accessToken url = HttpResult.response resp) :
    ((∃ e, (request env g url).2 = Except.error e) ↔ resp.status ≠ 200) ∧
    (resp.status ≠ 200 → ∀ fs,
      fetchSubGroups env g url fs =
        ⟨[Event.request url (some resp.status)], fs, Outcome.fatal Fatal.fetchingSubgroups⟩) ∧
    (resp.status ≠ 200 → ∀ gid path fs, projectsUrl g gid = url →
      listProjectsAndClone env g gid path fs =
        ⟨[Event.request url (some resp.status)], fs, Outcome.fatal Fatal.listingProjects⟩) ∧
    (∀ flags fs before ev after,
      (main env flags fs).events = before ++ ev :: after → ev.isRefusal = true →
        after = [] ∧ ∃ f, (main env flags fs).out = Outcome.fatal f) := by
  refine ⟨?_, ?_, ?_, ?_⟩
  · unfold request
    rw [hhttp]
    by_cases hs : resp.status = 200 <;> simp [hs]
  · intro hs fs
    unfold fetchSubGroups request
    rw [hhttp]
    simp [hs]
  · intro hs gid path fs hurl
    unfold listProjectsAndClone request
    rw [hurl, hhttp]
    simp [hs]
  · intro flags fs before ev after hsplit hev
    exact last_of_stops (main_stops env flags fs) hsplit hev

set_option maxRecDepth 20000 in
/-- C4, on the sample: the server refuses to list the projects of the subgroup
with a 403. The run ends there, fatally; the one project of the root was
cloned before, and nothing is cloned afterwards. -/
theorem non200_ends_run_witness :
    (main (quietDisk refusingServer) sampleFlags []).out = Outcome.fatal Fatal.listingProjects ∧
    cloneCalls (main (quietDisk refusingServer) sampleFlags []).events =
      [("https://gitlab.example/team/docs.git", "team", "docs")] ∧
    (main (quietDisk refusingServer) sampleFlags []).events.getLast? =
      some (Event.request
        "https://gitlab.example/api/v4/groups/43/projects?archived=false&per_page=1000&with_shared=false"
        (some 403)) ∧
    ((∃ e, (request (quietDisk refusingServer) (withApiURL sampleFlags)
        "https://gitlab.example/api/v4/groups/43/projects?archived=false&per_page=1000&with_shared=false").2
          = Except.error e) ↔ (403 : Nat) ≠ 200) :=
  ⟨by decide, by decide, by decide,
   (non200_ends_run (quietDisk refusingServer) (withApiURL sampleFlags)
      "https://gitlab.example/api/v4/groups/43/projects?archived=false&per_page=1000&with_shared=false"
      ⟨403, "\x7b\"message\":\"403 Forbidden\"\x7d", false, false⟩ rfl).1⟩

end Clonador
